import Mathlib

/-!
Verification of the DOCX-to-HTML parsing core of the contract-lifecycle
application, as implemented in the `parse-docx` serverless functions.
Strings are modelled as `List Char`; byte buffers as `List Nat`.
JavaScript string operations (`indexOf`, `substring`, `includes`, global
literal `replace`) are embedded as executable functions below, and the
hand-rolled scanning loops of `parseDocxFromUrl` are translated one loop
at a time, with explicit cursors and fuel-free well-founded recursion.
-/

/-- Position of the first occurrence of `pat` in `l` (0-based), scanning left
to right; `none` if `pat` never occurs.  Models the search underlying JS
`String.prototype.indexOf`. -/
def firstOcc (pat : List Char) : List Char → Option Nat
  | [] => if pat = [] then some 0 else none
  | c :: rest =>
    if pat.isPrefixOf (c :: rest) then some 0
    else (firstOcc pat rest).map (· + 1)

/-- JS `s.indexOf(pat, start)`: first occurrence of `pat` at index ≥ `start`
(`none` plays the role of JS's `-1`). -/
def idxFrom (pat s : List Char) (start : Nat) : Option Nat :=
  (firstOcc pat (s.drop start)).map (· + start)

/-- JS `s.substring(a, b)` for `a ≤ b`. -/
def substr (s : List Char) (a b : Nat) : List Char := (s.take b).drop a

/-- JS `s.includes(pat)`. -/
def jsIncludes (pat s : List Char) : Bool := (firstOcc pat s).isSome

theorem firstOcc_some_isPrefixOf {pat l : List Char} {j : Nat}
    (h : firstOcc pat l = some j) : pat.isPrefixOf (l.drop j) := by
  induction l generalizing j with
  | nil =>
    simp only [firstOcc] at h
    split at h
    · simp_all [List.isPrefixOf]
    · simp at h
  | cons c rest ih =>
    rw [firstOcc] at h
    split at h
    · simp only [Option.some.injEq] at h
      subst h
      simpa using ‹pat.isPrefixOf (c :: rest) = true›
    · rcases ho : firstOcc pat rest with _ | j'
      · simp [ho] at h
      · simp only [ho, Option.map_some'] at h
        obtain rfl : j' + 1 = j := by simpa using h
        simpa using ih ho

theorem firstOcc_some_le {pat l : List Char} {j : Nat}
    (h : firstOcc pat l = some j) : j + pat.length ≤ l.length := by
  induction l generalizing j with
  | nil =>
    simp only [firstOcc] at h
    split at h
    · simp_all
    · simp at h
  | cons c rest ih =>
    rw [firstOcc] at h
    split at h
    · obtain rfl : 0 = j := by simpa using h
      have := (List.isPrefixOf_iff_prefix.mp ‹pat.isPrefixOf (c :: rest) = true›).length_le
      omega
    · rcases ho : firstOcc pat rest with _ | j'
      · simp [ho] at h
      · simp only [ho, Option.map_some'] at h
        obtain rfl : j' + 1 = j := by simpa using h
        have := ih ho
        simp only [List.length_cons]
        omega

theorem idxFrom_some {pat s : List Char} {start j : Nat} (hpat : pat ≠ [])
    (h : idxFrom pat s start = some j) :
    start ≤ j ∧ pat.isPrefixOf (s.drop j) ∧ j + pat.length ≤ s.length := by
  have hp : 1 ≤ pat.length := List.length_pos.mpr hpat
  rcases ho : firstOcc pat (s.drop start) with _ | j'
  · simp [idxFrom, ho] at h
  · simp only [idxFrom, ho, Option.map_some'] at h
    obtain rfl : j' + start = j := by simpa using h
    have h1 := firstOcc_some_isPrefixOf ho
    have h2 := firstOcc_some_le ho
    rw [List.drop_drop] at h1
    simp only [List.length_drop] at h2
    exact ⟨by omega, by rwa [Nat.add_comm start j'] at h1, by omega⟩

theorem firstOcc_none_iff {pat l : List Char} :
    firstOcc pat l = none ↔ ∀ j, ¬ pat.isPrefixOf (l.drop j) := by
  induction l with
  | nil =>
    rcases pat with _ | ⟨p, ps⟩ <;> simp [firstOcc, List.isPrefixOf]
  | cons c rest ih =>
    constructor
    · intro h j
      rw [firstOcc] at h
      split at h
      · simp at h
      · match j with
        | 0 => simpa using ‹¬ pat.isPrefixOf (c :: rest) = true›
        | j + 1 =>
          have : firstOcc pat rest = none := by
            rcases ho : firstOcc pat rest with _ | j' <;> simp_all
          simpa using ih.mp this j
    · intro h
      rw [firstOcc]
      split
      · exact absurd ‹pat.isPrefixOf (c :: rest) = true› (by simpa using h 0)
      · have : firstOcc pat rest = none := ih.mpr fun j => by simpa using h (j + 1)
        simp [this]

theorem idxFrom_none_mono {pat s : List Char} {a b : Nat}
    (h : idxFrom pat s a = none) (hab : a ≤ b) : idxFrom pat s b = none := by
  have h1 : firstOcc pat (s.drop a) = none := by
    rcases ho : firstOcc pat (s.drop a) with _ | j
    · rfl
    · simp [idxFrom, ho] at h
  have h2 : firstOcc pat (s.drop b) = none := by
    rw [firstOcc_none_iff] at h1 ⊢
    intro j
    have : (s.drop b).drop j = (s.drop a).drop (j + (b - a)) := by
      rw [List.drop_drop, List.drop_drop]
      congr 1
      omega
    rw [this]
    exact h1 _
  simp [idxFrom, h2]

theorem jsIncludes_iff_infix {pat s : List Char} :
    jsIncludes pat s = true ↔ pat <:+: s := by
  constructor
  · intro h
    rcases ho : firstOcc pat s with _ | j
    · simp [jsIncludes, ho] at h
    · have := List.isPrefixOf_iff_prefix.mp (firstOcc_some_isPrefixOf ho)
      exact this.isInfix.trans (s.drop_suffix j).isInfix
  · intro h
    rcases ho : firstOcc pat s with _ | j
    · exfalso
      obtain ⟨u, v, rfl⟩ := h
      have := firstOcc_none_iff.mp ho u.length
      rw [List.append_assoc, List.drop_left] at this
      exact this (List.isPrefixOf_iff_prefix.mpr ⟨v, rfl⟩)
    · simp [jsIncludes, ho]

theorem jsIncludes_eq_false_iff {pat s : List Char} :
    jsIncludes pat s = false ↔ ¬ pat <:+: s := by
  rw [← jsIncludes_iff_infix]
  simp

/-! ### JS global literal string replacement

`jsReplace pat repl l` is `l.replace(/pat/g, repl)` for a literal pattern:
left-to-right scan, non-overlapping matches, the replacement text is not
rescanned. -/

/-- Fuelled worker for `jsReplace`; the fuel is an upper bound on the input
length, so the wrapper below always supplies enough. -/
def jsReplaceF (pat repl : List Char) : Nat → List Char → List Char
  | 0, l => l
  | _ + 1, [] => []
  | f + 1, c :: rest =>
    if pat.isPrefixOf (c :: rest) ∧ pat ≠ [] then
      repl ++ jsReplaceF pat repl f (rest.drop (pat.length - 1))
    else
      c :: jsReplaceF pat repl f rest

/-- JS `l.replace(/pat/g, repl)` for a literal, non-empty pattern. -/
def jsReplace (pat repl : List Char) (l : List Char) : List Char :=
  jsReplaceF pat repl l.length l

theorem jsReplaceF_congr (pat repl : List Char) :
    ∀ f1 f2 l, l.length ≤ f1 → l.length ≤ f2 →
      jsReplaceF pat repl f1 l = jsReplaceF pat repl f2 l := by
  intro f1
  induction f1 with
  | zero =>
    intro f2 l h1 _
    obtain rfl : l = [] := List.length_eq_zero.mp (by omega)
    cases f2 <;> rfl
  | succ f1 IH =>
    intro f2 l h1 h2
    match l with
    | [] => cases f2 <;> rfl
    | c :: rest =>
      match f2 with
      | 0 => simp at h2
      | f2 + 1 =>
        simp only [jsReplaceF]
        have hr : rest.length ≤ f1 := by simp at h1; omega
        have hr2 : rest.length ≤ f2 := by simp at h2; omega
        split
        · rw [IH f2 _ (by simp only [List.length_drop]; omega)
            (by simp only [List.length_drop]; omega)]
        · rw [IH f2 rest hr hr2]

theorem jsReplace_nil (pat repl : List Char) : jsReplace pat repl [] = [] := rfl

theorem jsReplace_cons (pat repl : List Char) (c : Char) (rest : List Char) :
    jsReplace pat repl (c :: rest) =
      if pat.isPrefixOf (c :: rest) ∧ pat ≠ [] then
        repl ++ jsReplace pat repl (rest.drop (pat.length - 1))
      else
        c :: jsReplace pat repl rest := by
  show jsReplaceF pat repl (rest.length + 1) (c :: rest) = _
  simp only [jsReplaceF]
  split
  · rw [jsReplaceF_congr pat repl rest.length (rest.drop (pat.length - 1)).length _
      (by simp only [List.length_drop]; omega) le_rfl]
    rfl
  · rfl

/-- The HTML-escaping chain of `parseDocxFromUrl` (part_003 lines 134–140):
escape `&`, `<`, `>`, then undo the double escaping of fragments that were
already escaped in the source text. -/
def escapeHtml (t : List Char) : List Char :=
  jsReplace "&amp;amp;".toList "&amp;".toList
    (jsReplace "&amp;gt;".toList "&gt;".toList
      (jsReplace "&amp;lt;".toList "&lt;".toList
        (jsReplace ">".toList "&gt;".toList
          (jsReplace "<".toList "&lt;".toList
            (jsReplace "&".toList "&amp;".toList t)))))

/-- Formatting-tag wrapping of part_003 lines 142–145: underline applied
first (innermost), then italic, then bold (outermost). -/
def wrapFormatting (bold italic underline : Bool) (t : List Char) : List Char :=
  let t1 := if underline then "<u>".toList ++ t ++ "</u>".toList else t
  let t2 := if italic then "<em>".toList ++ t1 ++ "</em>".toList else t1
  if bold then "<strong>".toList ++ t2 ++ "</strong>".toList else t2

/-- Contribution of one run to the paragraph HTML (part_003 lines 132–147):
nothing if the extracted text is empty, otherwise the escaped text wrapped
in the formatting tags. -/
def runContribution (bold italic underline : Bool) (runText : List Char) : List Char :=
  if runText = [] then []
  else wrapFormatting bold italic underline (escapeHtml runText)

/-- The single-quote character, written via its code point. -/
def squote : Char := Char.ofNat 39

/-- The literal `val="0"`. -/
def valZeroDq : List Char := "val=\"0\"".toList

/-- The literal `val='0'` (single quotes). -/
def valZeroSq : List Char := ['v', 'a', 'l', '='] ++ [squote] ++ ['0'] ++ [squote]

/-- Bold detection of part_003 lines 113–115, over the run-properties text. -/
def isBold (rPr : List Char) : Bool :=
  jsIncludes "<w:b/>".toList rPr || jsIncludes "<w:b>".toList rPr ||
    (jsIncludes "<w:b ".toList rPr && !jsIncludes valZeroDq rPr && !jsIncludes valZeroSq rPr)

/-- Italic detection of part_003 lines 117–119. -/
def isItalic (rPr : List Char) : Bool :=
  jsIncludes "<w:i/>".toList rPr || jsIncludes "<w:i>".toList rPr ||
    (jsIncludes "<w:i ".toList rPr && !jsIncludes valZeroDq rPr && !jsIncludes valZeroSq rPr)

/-- Underline detection of part_003 line 121. -/
def isUnderline (rPr : List Char) : Bool :=
  jsIncludes "<w:u ".toList rPr && !jsIncludes "val=\"none\"".toList rPr

/-- Run-properties region extraction (part_003 lines 110–111), modelling the
regex `/<w:rPr>([\s\S]*?)<\/w:rPr>/`: the text between the first `<w:rPr>`
and the first `</w:rPr>` after it, or `""` when the regex does not match.
(The JS regex would retry later `<w:rPr>` occurrences on failure, but a
close tag after a later open is also a close tag after the first open, so
taking the first open is equivalent.) -/
def rPrOf (runContent : List Char) : List Char :=
  match idxFrom "<w:rPr>".toList runContent 0 with
  | none => []
  | some i =>
    match idxFrom "</w:rPr>".toList runContent (i + 7) with
    | none => []
    | some j => substr runContent (i + 7) j

/-! ### Container models

`unzipSync` (the fflate library) and `DecompressionStream` are external
primitives; they enter the model as parameters. -/

/-- One local-file-header record as collected by `parseDocxWithZip`
(`src/supabase/functions/parse-docx/index.ts` lines 124–148). -/
structure ZipFileEntry where
  name : String
  offset : Nat
  compressedSize : Nat
  uncompressedSize : Nat
  compressionMethod : Nat
deriving DecidableEq

/-- JS `uint8Array.slice(a, b)`. -/
def sliceBytes (l : List Nat) (a b : Nat) : List Nat := (l.take b).drop a

/-- Entry extraction of `parseDocxWithZip` (index.ts lines 151–193): find
`word/document.xml` among the scanned entries and decompress it, with the
raw-DEFLATE decompressor `inflate` passed in as an external primitive. -/
def extractDocumentXmlBytes (bytes : List Nat) (files : List ZipFileEntry)
    (inflate : List Nat → List Nat) : Except String (List Nat) :=
  match files.find? (fun f => f.name == "word/document.xml") with
  | none => .error "Could not find word/document.xml in DOCX"
  | some f =>
    if f.compressionMethod = 0 then
      .ok (sliceBytes bytes f.offset (f.offset + f.uncompressedSize))
    else if f.compressionMethod = 8 then
      .ok (inflate (sliceBytes bytes f.offset (f.offset + f.compressedSize)))
    else
      .error ("Unsupported compression method: " ++ toString f.compressionMethod)

/-- Result of `unzipSync` modelled as a name→text map (the entries are
decoded to text, standing in for `TextDecoder`); `none` models the library
throwing.  The driver of part_003 lines 22–42. -/
def parseDocxDriver (bytes : List Nat) (unzipRes : Option (List (String × List Char)))
    (parseXml : List Char → List Char) : Except String (List Char) :=
  if bytes[0]? ≠ some 0x50 ∨ bytes[1]? ≠ some 0x4B then
    .error "Not a valid DOCX file (missing ZIP signature)"
  else
    match unzipRes with
    | none => .error "Failed to unzip DOCX file"
    | some unzipped =>
      match unzipped.lookup "word/document.xml" with
      | none => .error "Could not find word/document.xml in DOCX"
      | some documentXml => .ok (parseXml documentXml)


/-! ### The paragraph close-tag scanner (part_003 lines 53–80) -/

/-- The open-tag search string `"<w:p"` of the paragraph scanner. -/
def wpOpenTag : List Char := "<w:p".toList

/-- The close-tag search string `"</w:p>"` of the paragraph scanner. -/
def wpCloseTag : List Char := "</w:p>".toList

/-- The depth-tracking loop of part_003 lines 59–75: starting at `sp` with
the given `depth`, find the `</w:p>` that balances the enclosing `<w:p`.
Returns the index of the balancing close tag, or `none` when the loop ends
with `pEnd` still `-1`. -/
def findCloseLoop (s : List Char) (sp depth : Nat) : Option Nat :=
  if sp < s.length ∧ 0 < depth then
    match h2 : idxFrom wpCloseTag s sp with
    | none => none
    | some nc =>
      match h3 : idxFrom wpOpenTag s sp with
      | some no =>
        if no < nc then findCloseLoop s (no + 4) (depth + 1)
        else if depth = 1 then some nc
        else findCloseLoop s (nc + 6) (depth - 1)
      | none =>
        if depth = 1 then some nc
        else findCloseLoop s (nc + 6) (depth - 1)
  else none
termination_by s.length + 1 - sp
decreasing_by
  · have := idxFrom_some (show wpOpenTag ≠ [] by decide) h3
    have hl : wpOpenTag.length = 4 := by decide
    omega
  · have := idxFrom_some (show wpCloseTag ≠ [] by decide) h2
    have hl : wpCloseTag.length = 6 := by decide
    omega
  · have := idxFrom_some (show wpCloseTag ≠ [] by decide) h2
    have hl : wpCloseTag.length = 6 := by decide
    omega

/-- Paragraph end resolution (part_003 lines 53–80): the depth-tracking
loop, then the fallback `indexOf("</w:p>", pStart)` when the loop did not
set `pEnd`. -/
def findParagraphEnd (s : List Char) (pStart : Nat) : Option Nat :=
  match findCloseLoop s (pStart + 4) 1 with
  | some pEnd => some pEnd
  | none => idxFrom wpCloseTag s pStart

theorem findCloseLoop_some_bounds {s : List Char} {sp depth e : Nat}
    (h : findCloseLoop s sp depth = some e) : sp ≤ e ∧ e + 6 ≤ s.length := by
  have hlc : wpCloseTag.length = 6 := by decide
  have hlo : wpOpenTag.length = 4 := by decide
  have key : ∀ n sp depth, s.length + 1 - sp ≤ n →
      findCloseLoop s sp depth = some e → sp ≤ e ∧ e + 6 ≤ s.length := by
    intro n
    induction n with
    | zero =>
      intro sp depth hn h
      rw [findCloseLoop] at h
      rw [if_neg (by omega)] at h
      simp at h
    | succ n IH =>
      intro sp depth hn h
      rw [findCloseLoop] at h
      split at h
      · split at h
        · simp at h
        · next nc hnc =>
          have hbc := idxFrom_some (show wpCloseTag ≠ [] by decide) hnc
          split at h
          · next no hno =>
            have hbo := idxFrom_some (show wpOpenTag ≠ [] by decide) hno
            split at h
            · have := IH (no + 4) (depth + 1) (by omega) h
              omega
            · split at h
              · obtain rfl : nc = e := by simpa using h
                omega
              · have := IH (nc + 6) (depth - 1) (by omega) h
                omega
          · split at h
            · obtain rfl : nc = e := by simpa using h
              omega
            · have := IH (nc + 6) (depth - 1) (by omega) h
              omega
      · simp at h
  exact key (s.length + 1 - sp) sp depth le_rfl h

theorem findParagraphEnd_some_bounds {s : List Char} {pStart e : Nat}
    (h : findParagraphEnd s pStart = some e) : pStart ≤ e ∧ e + 6 ≤ s.length := by
  rw [findParagraphEnd] at h
  rcases hl : findCloseLoop s (pStart + 4) 1 with _ | e'
  · rw [hl] at h
    have := idxFrom_some (show wpCloseTag ≠ [] by decide) h
    have hlc : wpCloseTag.length = 6 := by decide
    omega
  · rw [hl] at h
    obtain rfl : e' = e := by simpa using h
    have := findCloseLoop_some_bounds hl
    omega

/-- Strong induction on list length, used for the scanning loops below. -/
theorem list_length_induction {α : Type} (P : List α → Prop)
    (ih : ∀ l, (∀ m : List α, m.length < l.length → P m) → P l) : ∀ l, P l := by
  have key : ∀ n (l : List α), l.length ≤ n → P l := by
    intro n
    induction n with
    | zero => exact fun l hl => ih l fun m hm => absurd (Nat.lt_of_lt_of_le hm hl) (Nat.not_lt_zero _)
    | succ n IH => exact fun l hl => ih l fun m hm => IH m (by omega)
  exact fun l => key l.length l le_rfl

/-! ### Text-node extraction (part_003 lines 124–130)

Models the global regex `/<w:t[^>]*>([\s\S]*?)<\/w:t>/g`: at each scan
position, match `<w:t`, then the maximal run of non-`>` characters, then
`>`, then lazily up to the first `</w:t>`; on failure advance one
character. -/

/-- One attempt of the text-node regex at the head of `l`: on success,
returns the captured text-node content and the remainder after the match. -/
def tMatch (l : List Char) : Option (List Char × List Char) :=
  if "<w:t".toList.isPrefixOf l then
    match (l.drop 4).dropWhile (· ≠ '>') with
    | [] => none
    | _ :: body =>
      match firstOcc "</w:t>".toList body with
      | none => none
      | some j => some (body.take j, body.drop (j + 6))
  else none

theorem tMatch_some_rest_lt {l txt rest : List Char} (h : tMatch l = some (txt, rest)) :
    rest.length < l.length := by
  rw [tMatch] at h
  split at h
  · next hpre =>
    have h4 : 4 ≤ l.length := by
      have := (List.isPrefixOf_iff_prefix.mp hpre).length_le
      simpa using this
    split at h
    · simp at h
    · next x body hdw =>
      have hb : body.length + 1 ≤ l.length - 4 := by
        have h1 : ((l.drop 4).dropWhile (· ≠ '>')).length ≤ (l.drop 4).length :=
          (List.dropWhile_sublist _).length_le
        rw [hdw] at h1
        simpa using h1
      split at h
      · simp at h
      · next j hj =>
        obtain ⟨rfl, rfl⟩ : body.take j = txt ∧ body.drop (j + 6) = rest := by
          constructor <;> simp_all
        have : (body.drop (j + 6)).length ≤ body.length := by simp
        omega
  · simp at h

/-- Fuelled worker for `extractTexts`; the fuel is an upper bound on the
input length. -/
def extractTextsF : Nat → List Char → List Char
  | 0, _ => []
  | _ + 1, [] => []
  | f + 1, c :: rest =>
    match tMatch (c :: rest) with
    | some (txt, rest2) => txt ++ extractTextsF f rest2
    | none => extractTextsF f rest

/-- The text-extraction scan (part_003 lines 124–130): concatenation of all
text-node contents found by repeatedly running the text-node regex. -/
def extractTexts (l : List Char) : List Char :=
  extractTextsF l.length l

/-- Per-run processing (part_003 lines 107–147): extract the properties
region, detect the three flags, extract and escape the text, and wrap. -/
def processRun (runContent : List Char) : List Char :=
  runContribution (isBold (rPrOf runContent)) (isItalic (rPrOf runContent))
    (isUnderline (rPrOf runContent)) (extractTexts runContent)

/-! ### The run loop (part_003 lines 86–150) -/

/-- The run open-tag search string `"<w:r>"` (bare form). -/
def wrOpenBare : List Char := "<w:r>".toList

/-- The run open-tag search string `"<w:r "` (attribute form). -/
def wrOpenAttr : List Char := "<w:r ".toList

/-- The run close-tag search string `"</w:r>"`. -/
def wrCloseTag : List Char := "</w:r>".toList

/-- The two-candidate combination of part_003 lines 93–100: the smaller of
the two `indexOf` results when both exist, else whichever exists. -/
def combineStarts : Option Nat → Option Nat → Option Nat
  | some x, some y => some (min x y)
  | some x, none => some x
  | none, some y => some y
  | none, none => none

theorem combineStarts_some {a b : Option Nat} {r : Nat}
    (h : combineStarts a b = some r) : a = some r ∨ b = some r := by
  match a, b with
  | some x, some y =>
    obtain rfl : min x y = r := by simpa [combineStarts] using h
    rcases min_choice x y with h' | h'
    · exact Or.inl (by rw [h'])
    · exact Or.inr (by rw [h'])
  | some x, none => exact Or.inl (by simpa [combineStarts] using h)
  | none, some y => exact Or.inr (by simpa [combineStarts] using h)
  | none, none => simp [combineStarts] at h

/-- The run loop (part_003 lines 88–150): find the next run start (bare or
attribute form), find its close tag, process the run, and continue past the
close tag.  Unclosed or absent runs end the loop. -/
def runsLoop (pc : List Char) (runPos : Nat) : List Char :=
  if runPos < pc.length then
    match h1 : combineStarts (idxFrom wrOpenBare pc runPos) (idxFrom wrOpenAttr pc runPos) with
    | none => []
    | some rs =>
      match h4 : idxFrom wrCloseTag pc rs with
      | none => []
      | some re => processRun (substr pc rs (re + 6)) ++ runsLoop pc (re + 6)
  else []
termination_by pc.length - runPos
decreasing_by
  have h6 := idxFrom_some (show wrCloseTag ≠ [] by decide) h4
  have hl6 : wrCloseTag.length = 6 := by decide
  rcases combineStarts_some h1 with hc | hc
  · have h5 := idxFrom_some (show wrOpenBare ≠ [] by decide) hc
    omega
  · have h5 := idxFrom_some (show wrOpenAttr ≠ [] by decide) hc
    omega

/-! ### Paragraph classification and emission (part_003 lines 152–172) -/

/-- A character matching the regex class `\s` (core JS whitespace set). -/
def isJsSpace (c : Char) : Bool :=
  c = ' ' || c = '\t' || c = '\n' || c = '\r' || c = '\x0b' || c = '\x0c'

/-- One attempt of the style regex `/<w:pStyle\s+w:val="([^"]+)"/` at the
head of `l`: `<w:pStyle`, at least one whitespace character, the literal
`w:val="`, then a non-empty maximal run of non-quote characters
followed by the closing quote; the captured style name on success. -/
def tryPStyleAt (l : List Char) : Option (List Char) :=
  if "<w:pStyle".toList.isPrefixOf l then
    let after := l.drop 9
    let rest2 := after.dropWhile isJsSpace
    if rest2.length = after.length then none
    else if "w:val=\"".toList.isPrefixOf rest2 then
      let v := (rest2.drop 7).takeWhile (· ≠ '"')
      if v = [] then none
      else
        match (rest2.drop 7).dropWhile (· ≠ '"') with
        | [] => none
        | _ :: _ => some v
    else none
  else none

/-- First match of the style regex over `l` (part_003 lines 156–157). -/
def pStyleMatch : List Char → Option (List Char)
  | [] => none
  | c :: rest =>
    match tryPStyleAt (c :: rest) with
    | some v => some v
    | none => pStyleMatch rest

/-- Classification and emission of one paragraph region (part_003 lines
85–172): run the run loop, then the list-item/heading/plain/empty branch
chain. -/
def emitParagraph (pc : List Char) : List Char :=
  let paragraphHtml := runsLoop pc 0
  let style := (pStyleMatch pc).getD []
  let styleLower := style.map Char.toLower
  if jsIncludes "<w:numPr>".toList pc then
    "<li>".toList ++ (if paragraphHtml = [] then "&nbsp;".toList else paragraphHtml) ++
      "</li>".toList
  else if jsIncludes "heading1".toList styleLower || style = "Ttulo1".toList then
    "<h1>".toList ++ paragraphHtml ++ "</h1>".toList
  else if jsIncludes "heading2".toList styleLower || style = "Ttulo2".toList then
    "<h2>".toList ++ paragraphHtml ++ "</h2>".toList
  else if jsIncludes "heading3".toList styleLower || style = "Ttulo3".toList then
    "<h3>".toList ++ paragraphHtml ++ "</h3>".toList
  else if paragraphHtml ≠ [] then "<p>".toList ++ paragraphHtml ++ "</p>".toList
  else "<p><br></p>".toList

/-- The outer paragraph loop (part_003 lines 49–175): find the next `<w:p`,
resolve its close tag, emit the paragraph, continue past the close tag.
A missing close tag ends the loop, dropping the rest of the input. -/
def parseXmlLoop (s : List Char) (pos : Nat) : List Char :=
  if pos < s.length then
    match h1 : idxFrom wpOpenTag s pos with
    | none => []
    | some pStart =>
      match h2 : findParagraphEnd s pStart with
      | none => []
      | some pEnd => emitParagraph (substr s pStart (pEnd + 6)) ++ parseXmlLoop s (pEnd + 6)
  else []
termination_by s.length - pos
decreasing_by
  have h3 := idxFrom_some (show wpOpenTag ≠ [] by decide) h1
  have h5 := findParagraphEnd_some_bounds h2
  omega

/-! ### Post-processing (part_003 lines 177–181) -/


/-- The empty-paragraph placeholder `<p><br></p>`. -/
def emptyP : List Char := "<p><br></p>".toList

/-- Fuelled worker for `countEmptyP`. -/
def countEmptyPF : Nat → List Char → Nat
  | 0, _ => 0
  | f + 1, l => if emptyP.isPrefixOf l then 1 + countEmptyPF f (l.drop 11) else 0

/-- Number of consecutive copies of `<p><br></p>` at the head of `l`
(the `{3,}` counting of the collapse regex). -/
def countEmptyP (l : List Char) : Nat := countEmptyPF l.length l

theorem countEmptyPF_congr :
    ∀ f1 f2 l, l.length ≤ f1 → l.length ≤ f2 → countEmptyPF f1 l = countEmptyPF f2 l := by
  intro f1
  induction f1 with
  | zero =>
    intro f2 l h1 _
    obtain rfl : l = [] := List.length_eq_zero.mp (by omega)
    cases f2 with
    | zero => rfl
    | succ f2 =>
      simp only [countEmptyPF]
      rw [if_neg (by simp [emptyP, List.isPrefixOf])]
  | succ f1 IH =>
    intro f2 l h1 h2
    match f2 with
    | 0 =>
      obtain rfl : l = [] := List.length_eq_zero.mp (by omega)
      simp only [countEmptyPF]
      rw [if_neg (by simp [emptyP, List.isPrefixOf])]
    | f2 + 1 =>
      simp only [countEmptyPF]
      split
      · next hpre =>
        have h11 : 11 ≤ l.length := by
          have := (List.isPrefixOf_iff_prefix.mp hpre).length_le
          simpa [emptyP] using this
        rw [IH f2 (l.drop 11) (by simp only [List.length_drop]; omega)
          (by simp only [List.length_drop]; omega)]
      · rfl

theorem countEmptyP_eq (l : List Char) :
    countEmptyP l = if emptyP.isPrefixOf l then 1 + countEmptyP (l.drop 11) else 0 := by
  match l with
  | [] =>
    simp only [countEmptyP, List.length_nil, countEmptyPF]
    rw [if_neg (by simp [emptyP, List.isPrefixOf])]
  | c :: rest =>
    show countEmptyPF (rest.length + 1) (c :: rest) = _
    simp only [countEmptyPF]
    split
    · next hpre =>
      have h11 : 11 ≤ (c :: rest).length := by
        have := (List.isPrefixOf_iff_prefix.mp hpre).length_le
        simpa [emptyP] using this
      rw [countEmptyPF_congr rest.length ((c :: rest).drop 11).length _
        (by simp only [List.length_drop, List.length_cons] at h11 ⊢; omega) le_rfl]
      rfl
    · rfl

/-- Fuelled worker for `collapseEmptyParagraphs`. -/
def collapseEmptyParagraphsF : Nat → List Char → List Char
  | 0, _ => []
  | _ + 1, [] => []
  | f + 1, c :: rest =>
    if 3 ≤ countEmptyP (c :: rest) then
      emptyP ++ emptyP ++ collapseEmptyParagraphsF f ((c :: rest).drop (11 * countEmptyP (c :: rest)))
    else c :: collapseEmptyParagraphsF f rest

/-- The collapse pass `html.replace(/(<p><br><\/p>){3,}/g, "<p><br></p><p><br></p>")`
(part_003 line 181): at each position, a maximal run of at least three
placeholders is replaced by exactly two; otherwise one character is copied. -/
def collapseEmptyParagraphs (l : List Char) : List Char :=
  collapseEmptyParagraphsF l.length l

theorem collapseEmptyParagraphsF_congr :
    ∀ f1 f2 l, l.length ≤ f1 → l.length ≤ f2 →
      collapseEmptyParagraphsF f1 l = collapseEmptyParagraphsF f2 l := by
  intro f1
  induction f1 with
  | zero =>
    intro f2 l h1 _
    obtain rfl : l = [] := List.length_eq_zero.mp (by omega)
    cases f2 <;> rfl
  | succ f1 IH =>
    intro f2 l h1 h2
    match l with
    | [] => cases f2 <;> rfl
    | c :: rest =>
      match f2 with
      | 0 => simp at h2
      | f2 + 1 =>
        simp only [collapseEmptyParagraphsF]
        have hr : rest.length ≤ f1 := by simp at h1; omega
        have hr2 : rest.length ≤ f2 := by simp at h2; omega
        split
        · rw [IH f2 _ (by simp only [List.length_drop]; simp; omega)
            (by simp only [List.length_drop]; simp; omega)]
        · rw [IH f2 rest hr hr2]

theorem collapseEmptyParagraphs_nil : collapseEmptyParagraphs [] = [] := rfl

theorem collapseEmptyParagraphs_cons (c : Char) (rest : List Char) :
    collapseEmptyParagraphs (c :: rest) =
      if 3 ≤ countEmptyP (c :: rest) then
        emptyP ++ emptyP ++ collapseEmptyParagraphs ((c :: rest).drop (11 * countEmptyP (c :: rest)))
      else c :: collapseEmptyParagraphs rest := by
  show collapseEmptyParagraphsF (rest.length + 1) (c :: rest) = _
  simp only [collapseEmptyParagraphsF]
  split
  · rw [collapseEmptyParagraphsF_congr rest.length ((c :: rest).drop (11 * countEmptyP (c :: rest))).length _
      (by simp only [List.length_drop]; simp; omega) le_rfl]
    rfl
  · rfl

/-- The list-item open tag `<li>`. -/
def liOpen : List Char := "<li>".toList

/-- The list-item close tag `</li>`. -/
def liClose : List Char := "</li>".toList

/-- One block of the list-wrapping regex `(<li>[\s\S]*?<\/li>)`: `<li>` at
the head of `l`, then lazily up to the first `</li>`; returns the block and
the remainder. -/
def takeLiBlock (l : List Char) : Option (List Char × List Char) :=
  if liOpen.isPrefixOf l then
    match firstOcc liClose (l.drop 4) with
    | none => none
    | some j => some (l.take (j + 9), l.drop (j + 9))
  else none

theorem takeLiBlock_some {l b rest : List Char} (h : takeLiBlock l = some (b, rest)) :
    b ++ rest = l ∧ rest.length < l.length := by
  rw [takeLiBlock] at h
  split at h
  · next hpre =>
    have h4 : 4 ≤ l.length := by
      have := (List.isPrefixOf_iff_prefix.mp hpre).length_le
      simpa using this
    split at h
    · simp at h
    · next j hj =>
      obtain ⟨rfl, rfl⟩ : l.take (j + 9) = b ∧ l.drop (j + 9) = rest := by
        constructor <;> simp_all
      refine ⟨List.take_append_drop _ _, ?_⟩
      simp only [List.length_drop]
      omega
  · simp at h

/-- Fuelled worker for `takeLiRun`. -/
def takeLiRunF : Nat → List Char → Option (List Char × List Char)
  | 0, _ => none
  | f + 1, l =>
    match takeLiBlock l with
    | none => none
    | some (b, rest) =>
      match takeLiRunF f rest with
      | some (bs, rest2) => some (b ++ bs, rest2)
      | none => some (b, rest)

/-- The `+` repetition of the list-wrapping regex: a maximal non-empty run
of consecutive `<li>…</li>` blocks at the head of `l`. -/
def takeLiRun (l : List Char) : Option (List Char × List Char) :=
  takeLiRunF l.length l

theorem takeLiBlock_nil : takeLiBlock [] = none := by
  rw [takeLiBlock, if_neg (by simp [liOpen, List.isPrefixOf])]

theorem takeLiRunF_congr :
    ∀ f1 f2 l, l.length ≤ f1 → l.length ≤ f2 → takeLiRunF f1 l = takeLiRunF f2 l := by
  intro f1
  induction f1 with
  | zero =>
    intro f2 l h1 _
    obtain rfl : l = [] := List.length_eq_zero.mp (by omega)
    cases f2 with
    | zero => rfl
    | succ f2 => simp [takeLiRunF, takeLiBlock_nil]
  | succ f1 IH =>
    intro f2 l h1 h2
    match f2 with
    | 0 =>
      obtain rfl : l = [] := List.length_eq_zero.mp (by omega)
      simp [takeLiRunF, takeLiBlock_nil]
    | f2 + 1 =>
      simp only [takeLiRunF]
      rcases hb : takeLiBlock l with _ | ⟨b, rest⟩
      · rfl
      · have hlt := (takeLiBlock_some hb).2
        dsimp only
        rw [IH f2 rest (by omega) (by omega)]

theorem takeLiRun_eq (l : List Char) :
    takeLiRun l =
      match takeLiBlock l with
      | none => none
      | some (b, rest) =>
        match takeLiRun rest with
        | some (bs, rest2) => some (b ++ bs, rest2)
        | none => some (b, rest) := by
  match l with
  | [] => simp [takeLiRun, takeLiRunF, takeLiBlock_nil]
  | c :: rest0 =>
    show takeLiRunF (rest0.length + 1) (c :: rest0) = _
    simp only [takeLiRunF]
    rcases hb : takeLiBlock (c :: rest0) with _ | ⟨b, rest⟩
    · rfl
    · have hlt := (takeLiBlock_some hb).2
      dsimp only
      rw [takeLiRunF_congr rest0.length rest.length rest (by simp at hlt; omega) le_rfl]
      rfl

theorem takeLiRun_some_parts {l run rest2 : List Char} (h : takeLiRun l = some (run, rest2)) :
    run ++ rest2 = l ∧ rest2.length < l.length := by
  induction l using list_length_induction generalizing run rest2 with
  | _ l IH =>
    rw [takeLiRun_eq] at h
    rcases hb : takeLiBlock l with _ | ⟨b, rest⟩
    · rw [hb] at h
      simp at h
    · rw [hb] at h
      dsimp only at h
      have hbl := takeLiBlock_some hb
      rcases hr : takeLiRun rest with _ | ⟨bs, r2⟩
      · rw [hr] at h
        dsimp only at h
        obtain ⟨rfl, rfl⟩ : run = b ∧ rest2 = rest := by
          constructor <;> simp_all
        exact hbl
      · rw [hr] at h
        dsimp only at h
        obtain ⟨rfl, rfl⟩ : run = b ++ bs ∧ rest2 = r2 := by
          constructor <;> simp_all
        have := IH rest hbl.2 hr
        constructor
        · rw [List.append_assoc, this.1, hbl.1]
        · omega

/-- Fuelled worker for `wrapLi`. -/
def wrapLiF : Nat → List Char → List Char
  | 0, _ => []
  | _ + 1, [] => []
  | f + 1, c :: rest =>
    match takeLiRun (c :: rest) with
    | some (run, rest2) => "<ul>".toList ++ run ++ "</ul>".toList ++ wrapLiF f rest2
    | none => c :: wrapLiF f rest

/-- The list-wrapping pass `html.replace(/(<li>[\s\S]*?<\/li>)+/g, m => "<ul>"+m+"</ul>")`
(part_003 line 178): each maximal run of consecutive blocks is wrapped in
one `<ul>…</ul>`; positions that do not start a run are copied. -/
def wrapLi (l : List Char) : List Char := wrapLiF l.length l

theorem wrapLiF_congr :
    ∀ f1 f2 l, l.length ≤ f1 → l.length ≤ f2 → wrapLiF f1 l = wrapLiF f2 l := by
  intro f1
  induction f1 with
  | zero =>
    intro f2 l h1 _
    obtain rfl : l = [] := List.length_eq_zero.mp (by omega)
    cases f2 <;> rfl
  | succ f1 IH =>
    intro f2 l h1 h2
    match l with
    | [] => cases f2 <;> rfl
    | c :: rest =>
      match f2 with
      | 0 => simp at h2
      | f2 + 1 =>
        simp only [wrapLiF]
        rcases hr : takeLiRun (c :: rest) with _ | ⟨run, rest2⟩
        · dsimp only
          rw [IH f2 rest (by simp at h1; omega) (by simp at h2; omega)]
        · have hlt := (takeLiRun_some_parts hr).2
          dsimp only
          rw [IH f2 rest2 (by simp at h1 hlt; omega) (by simp at h2 hlt; omega)]

theorem wrapLi_nil : wrapLi [] = [] := rfl

theorem wrapLi_cons (c : Char) (rest : List Char) :
    wrapLi (c :: rest) =
      match takeLiRun (c :: rest) with
      | some (run, rest2) => "<ul>".toList ++ run ++ "</ul>".toList ++ wrapLi rest2
      | none => c :: wrapLi rest := by
  show wrapLiF (rest.length + 1) (c :: rest) = _
  simp only [wrapLiF]
  rcases hr : takeLiRun (c :: rest) with _ | ⟨run, rest2⟩
  · rfl
  · have hlt := (takeLiRun_some_parts hr).2
    dsimp only
    rw [wrapLiF_congr rest.length rest2.length rest2 (by simp at hlt; omega) le_rfl]
    rfl

/-- Post-processing of part_003 lines 177–181: list wrapping, then
empty-paragraph collapsing. -/
def postProcess (html : List Char) : List Char :=
  collapseEmptyParagraphs (wrapLi html)
/-- The full document-body-XML to HTML conversion of part_003 lines 46–186,
including the final `html || "<p></p>"` default. -/
def parseDocumentXml (s : List Char) : List Char :=
  let html := postProcess (parseXmlLoop s 0)
  if html = [] then "<p></p>".toList else html

/-! ### Spec-side notions used by the testable properties (spec §8)

These two definitions are taken from the spec's wording, not from the
source: they give meaning to "stripping its tags" and "HTML-entity-unescape"
in the round-trip property. -/

/-- Drop characters up to and including the next `>` (the tail of a tag). -/
def dropTag : List Char → List Char
  | [] => []
  | c :: r => if c = '>' then r else dropTag r

/-- Fuelled worker for `stripTags`. -/
def stripTagsF : Nat → List Char → List Char
  | 0, _ => []
  | _ + 1, [] => []
  | f + 1, c :: rest =>
    if c = '<' then stripTagsF f (dropTag rest) else c :: stripTagsF f rest

/-- Modelled from the spec: "the emitted HTML, when its tags are stripped" —
removes every `<…>` tag span from an HTML fragment. -/
def stripTags (l : List Char) : List Char := stripTagsF l.length l

/-- Modelled from the spec: "HTML-entity-unescape" — decodes `&lt;`, `&gt;`
and finally `&amp;` back to the source characters. -/
def unescapeHtml (t : List Char) : List Char :=
  jsReplace "&amp;".toList "&".toList
    (jsReplace "&gt;".toList ">".toList
      (jsReplace "&lt;".toList "<".toList t))

/-! ### Paragraph kinds (spec §3) and their emission -/

/-- Paragraph classification outcomes (spec §3 `ParagraphKind`), each
carrying its assembled inner run HTML.  `paragraph []` plays the role of
`EmptyParagraph`. -/
inductive ParagraphKind where
  | heading1 (t : List Char)
  | heading2 (t : List Char)
  | heading3 (t : List Char)
  | listItem (t : List Char)
  | paragraph (t : List Char)
deriving DecidableEq

/-- Block emission for one classified paragraph, mirroring the branch chain
of part_003 lines 159–172. -/
def emitKind : ParagraphKind → List Char
  | .listItem t => "<li>".toList ++ (if t = [] then "&nbsp;".toList else t) ++ "</li>".toList
  | .heading1 t => "<h1>".toList ++ t ++ "</h1>".toList
  | .heading2 t => "<h2>".toList ++ t ++ "</h2>".toList
  | .heading3 t => "<h3>".toList ++ t ++ "</h3>".toList
  | .paragraph t =>
    if t = [] then "<p><br></p>".toList else "<p>".toList ++ t ++ "</p>".toList

/-- Emission of a classified paragraph sequence followed by the two
post-processing passes (part_003 lines 159–181). -/
def assembleParagraphs (ps : List ParagraphKind) : List Char :=
  postProcess (List.join (ps.map emitKind))

/-! ## Claims -/

theorem wrapFormatting_all (e : List Char) :
    wrapFormatting true true true e =
      "<strong><em><u>".toList ++ e ++ "</u></em></strong>".toList := by
  have h1 : "<strong><em><u>".toList =
      "<strong>".toList ++ ("<em>".toList ++ "<u>".toList) := by decide
  have h2 : "</u></em></strong>".toList =
      "</u>".toList ++ ("</em>".toList ++ "</strong>".toList) := by decide
  rw [h1, h2]
  show "<strong>".toList ++ ("<em>".toList ++ ("<u>".toList ++ e ++ "</u>".toList) ++
    "</em>".toList) ++ "</strong>".toList = _
  simp [List.append_assoc]

/-- Claim C1: every run whose bold, italic and underline flags are all
detected as set and whose extracted text is non-empty is emitted as the
escaped text wrapped with underline innermost, then italic, then bold
outermost — exactly `<strong><em><u>text</u></em></strong>`; in particular
a run with text `"Hi"` and all three flags set yields exactly
`<strong><em><u>Hi</u></em></strong>`. -/
theorem run_formatting_nesting_order :
    (∀ rc : List Char, isBold (rPrOf rc) = true → isItalic (rPrOf rc) = true →
      isUnderline (rPrOf rc) = true → extractTexts rc ≠ [] →
      processRun rc =
        "<strong><em><u>".toList ++ escapeHtml (extractTexts rc) ++ "</u></em></strong>".toList) ∧
    processRun "<w:r><w:rPr><w:b/><w:i/><w:u /></w:rPr><w:t>Hi</w:t></w:r>".toList =
      "<strong><em><u>Hi</u></em></strong>".toList := by
  constructor
  · intro rc hb hi hu ht
    rw [processRun, hb, hi, hu, runContribution, if_neg ht, wrapFormatting_all]
  · decide

/-- Witness for C1: the general statement applied to the literal run of the
claim, whose three flags are detected as set and whose text is `"Hi"`. -/
theorem run_formatting_nesting_order_witness :
    isBold (rPrOf "<w:r><w:rPr><w:b/><w:i/><w:u /></w:rPr><w:t>Hi</w:t></w:r>".toList) = true ∧
    isItalic (rPrOf "<w:r><w:rPr><w:b/><w:i/><w:u /></w:rPr><w:t>Hi</w:t></w:r>".toList) = true ∧
    isUnderline (rPrOf "<w:r><w:rPr><w:b/><w:i/><w:u /></w:rPr><w:t>Hi</w:t></w:r>".toList) = true ∧
    extractTexts "<w:r><w:rPr><w:b/><w:i/><w:u /></w:rPr><w:t>Hi</w:t></w:r>".toList ≠ [] ∧
    processRun "<w:r><w:rPr><w:b/><w:i/><w:u /></w:rPr><w:t>Hi</w:t></w:r>".toList =
      "<strong><em><u>".toList ++
        escapeHtml (extractTexts "<w:r><w:rPr><w:b/><w:i/><w:u /></w:rPr><w:t>Hi</w:t></w:r>".toList) ++
        "</u></em></strong>".toList :=
  ⟨by decide, by decide, by decide, by decide,
    run_formatting_nesting_order.1 _ (by decide) (by decide) (by decide) (by decide)⟩

/-- Counterexample for C2: a bold marker carrying `val="false"` still sets
the bold flag and the run renders `<strong>` (the code only checks for
`val="0"`/`val='0'`), and a `val="0"` attribute on a *different* element of
the properties region negates an attribute-form bold marker. -/
theorem format_flag_negation_counterexample :
    isBold "<w:b w:val=\"false\"/>".toList = true ∧
    processRun "<w:r><w:rPr><w:b w:val=\"false\"/></w:rPr><w:t>Hi</w:t></w:r>".toList =
      "<strong>Hi</strong>".toList ∧
    "<strong>".toList <:+:
      processRun "<w:r><w:rPr><w:b w:val=\"false\"/></w:rPr><w:t>Hi</w:t></w:r>".toList ∧
    isBold "<w:b x=\"y\"/><w:sz w:val=\"0\"/>".toList = false := by
  refine ⟨by decide, by decide, ?_, by decide⟩
  rw [show processRun "<w:r><w:rPr><w:b w:val=\"false\"/></w:rPr><w:t>Hi</w:t></w:r>".toList =
    "<strong>Hi</strong>".toList from by decide]
  decide

/-- Claim C2 (amended): full characterization of the three formatting
flags as computed by part_003 lines 113–121. A bare bold/italic marker
(`<w:b/>`/`<w:b>`) always sets its flag; an attribute-form marker
(`<w:b `) sets the flag exactly when neither `val="0"` nor `val='0'`
occurs anywhere in the run-properties region (`val="false"` does not
negate, and the negating attribute need not sit on the marker element);
underline is set exactly when `<w:u ` is present and `val="none"` is not.
Explicit directional corollaries are stated as further conjuncts. -/
theorem format_flag_negation_amended (rPr : List Char) :
    (isBold rPr = true ↔
      ("<w:b/>".toList <:+: rPr) ∨ ("<w:b>".toList <:+: rPr) ∨
        (("<w:b ".toList <:+: rPr) ∧ ¬ (valZeroDq <:+: rPr) ∧ ¬ (valZeroSq <:+: rPr))) ∧
    (isItalic rPr = true ↔
      ("<w:i/>".toList <:+: rPr) ∨ ("<w:i>".toList <:+: rPr) ∨
        (("<w:i ".toList <:+: rPr) ∧ ¬ (valZeroDq <:+: rPr) ∧ ¬ (valZeroSq <:+: rPr))) ∧
    (isUnderline rPr = true ↔
      ("<w:u ".toList <:+: rPr) ∧ ¬ ("val=\"none\"".toList <:+: rPr)) ∧
    (("<w:b ".toList <:+: rPr) → ¬ (valZeroDq <:+: rPr) → ¬ (valZeroSq <:+: rPr) →
      isBold rPr = true) ∧
    ((valZeroSq <:+: rPr) → ¬ ("<w:b/>".toList <:+: rPr) → ¬ ("<w:b>".toList <:+: rPr) →
      isBold rPr = false) ∧
    (("val=\"none\"".toList <:+: rPr) → isUnderline rPr = false) := by
  have hB : isBold rPr = true ↔
      ("<w:b/>".toList <:+: rPr) ∨ ("<w:b>".toList <:+: rPr) ∨
        (("<w:b ".toList <:+: rPr) ∧ ¬ (valZeroDq <:+: rPr) ∧ ¬ (valZeroSq <:+: rPr)) := by
    simp only [isBold, Bool.or_eq_true, Bool.and_eq_true, Bool.not_eq_true',
      jsIncludes_iff_infix, jsIncludes_eq_false_iff]
    tauto
  have hI : isItalic rPr = true ↔
      ("<w:i/>".toList <:+: rPr) ∨ ("<w:i>".toList <:+: rPr) ∨
        (("<w:i ".toList <:+: rPr) ∧ ¬ (valZeroDq <:+: rPr) ∧ ¬ (valZeroSq <:+: rPr)) := by
    simp only [isItalic, Bool.or_eq_true, Bool.and_eq_true, Bool.not_eq_true',
      jsIncludes_iff_infix, jsIncludes_eq_false_iff]
    tauto
  have hU : isUnderline rPr = true ↔
      ("<w:u ".toList <:+: rPr) ∧ ¬ ("val=\"none\"".toList <:+: rPr) := by
    simp only [isUnderline, Bool.and_eq_true, Bool.not_eq_true',
      jsIncludes_iff_infix, jsIncludes_eq_false_iff]
  refine ⟨hB, hI, hU, ?_, ?_, ?_⟩
  · intro h1 h2 h3
    exact hB.mpr (Or.inr (Or.inr ⟨h1, h2, h3⟩))
  · intro hs h1 h2
    rw [Bool.eq_false_iff]
    intro ht
    rcases hB.mp ht with hx | hx | hx
    · exact h1 hx
    · exact h2 hx
    · exact hx.2.2 hs
  · intro hn
    rw [Bool.eq_false_iff]
    intro ht
    exact (hU.mp ht).2 hn

/-- Witness for the amended C2: concrete properties regions exercising the
attribute-form positive direction, the single-quoted negation, the
`val="none"` underline negation, and the bare-marker/underline cases. -/
theorem format_flag_negation_amended_witness :
    isBold "<w:b w:val=\"x\"/>".toList = true ∧
    isBold ("<w:b w:val=".toList ++ [squote] ++ ['0'] ++ [squote] ++ "/>".toList) = false ∧
    isUnderline "<w:u w:val=\"none\"/>".toList = false ∧
    isUnderline "<w:u w:val=\"single\"/>".toList = true ∧
    isBold "<w:b/>".toList = true ∧
    isUnderline "<w:u/>".toList = false :=
  ⟨(format_flag_negation_amended _).2.2.2.1 (by decide) (by decide) (by decide),
    (format_flag_negation_amended _).2.2.2.2.1 (by decide) (by decide) (by decide),
    (format_flag_negation_amended _).2.2.2.2.2 (by decide),
    (format_flag_negation_amended _).2.2.1.mpr ⟨by decide, by decide⟩,
    (format_flag_negation_amended _).1.mpr (Or.inl (by decide)),
    Bool.eq_false_iff.mpr (fun ht =>
      absurd ((format_flag_negation_amended _).2.2.1.mp ht).1 (by decide))⟩

/-- Counterexample for C8: a DEFLATE entry whose inflated output length (1)
differs from the declared uncompressed size (10) is still extracted
successfully — the code performs no size check and raises no corruption
error. -/
theorem deflate_no_size_check_counterexample :
    ((fun _ => ([0] : List Nat)) (sliceBytes [1, 2, 3] 0 3)).length ≠ 10 ∧
    extractDocumentXmlBytes [1, 2, 3] [⟨"word/document.xml", 0, 3, 10, 8⟩]
      (fun _ => [0]) = .ok [0] :=
  ⟨by decide, rfl⟩

/-- Claim C8 (amended): for a DEFLATE (method 8) entry the reader returns
the raw inflater output unconditionally — the declared uncompressed size is
never compared against it, and no corruption error can be produced by this
branch. -/
theorem deflate_uses_inflate_output_unconditionally (bytes : List Nat)
    (files : List ZipFileEntry) (inflate : List Nat → List Nat) (f : ZipFileEntry)
    (hf : files.find? (fun g => g.name == "word/document.xml") = some f)
    (hm : f.compressionMethod = 8) :
    extractDocumentXmlBytes bytes files inflate =
      .ok (inflate (sliceBytes bytes f.offset (f.offset + f.compressedSize))) := by
  rw [extractDocumentXmlBytes, hf]
  dsimp only
  rw [hm]
  simp

/-- Witness for the amended C8: the concrete mismatching entry of the
counterexample extracted through the general statement. -/
theorem deflate_uses_inflate_output_unconditionally_witness :
    extractDocumentXmlBytes [1, 2, 3] [⟨"word/document.xml", 0, 3, 10, 8⟩]
      (fun _ => [0]) = .ok ((fun _ => ([0] : List Nat))
        (sliceBytes [1, 2, 3] 0 (0 + 3))) :=
  deflate_uses_inflate_output_unconditionally [1, 2, 3] _ _
    ⟨"word/document.xml", 0, 3, 10, 8⟩ (by decide) rfl

/-- Claim C9: a well-formed container (valid signature, readable entries)
with no `word/document.xml` entry fails with the dedicated document-body
error — distinct from the container-level error strings — and never
returns a successful result. -/
theorem missing_document_body_error (bytes : List Nat)
    (entries : List (String × List Char))
    (hsig0 : bytes[0]? = some 0x50) (hsig1 : bytes[1]? = some 0x4B)
    (hmiss : entries.lookup "word/document.xml" = none) :
    parseDocxDriver bytes (some entries) parseDocumentXml =
      .error "Could not find word/document.xml in DOCX" ∧
    (∀ h, parseDocxDriver bytes (some entries) parseDocumentXml ≠ .ok h) ∧
    "Could not find word/document.xml in DOCX" ≠
      "Not a valid DOCX file (missing ZIP signature)" ∧
    "Could not find word/document.xml in DOCX" ≠ "Failed to unzip DOCX file" := by
  have hmain : parseDocxDriver bytes (some entries) parseDocumentXml =
      .error "Could not find word/document.xml in DOCX" := by
    rw [parseDocxDriver, if_neg (by simp [hsig0, hsig1])]
    simp [hmiss]
  exact ⟨hmain, fun h => by rw [hmain]; simp, by decide, by decide⟩

/-- Witness for C9: a two-byte buffer with a valid signature and an empty
entry map. -/
theorem missing_document_body_error_witness :
    parseDocxDriver [0x50, 0x4B] (some []) parseDocumentXml =
      .error "Could not find word/document.xml in DOCX" :=
  (missing_document_body_error [0x50, 0x4B] [] (by decide) (by decide) rfl).1

/-! ### C7 and C10: unclosed regions and loop progress -/

theorem findParagraphEnd_none_of_no_close {s : List Char} {pStart : Nat}
    (hc : idxFrom wpCloseTag s pStart = none) : findParagraphEnd s pStart = none := by
  have h2 : findCloseLoop s (pStart + 4) 1 = none := by
    rw [findCloseLoop]
    split
    · split
      · rfl
      · next nc hnc =>
        rw [idxFrom_none_mono hc (by omega)] at hnc
        exact Option.noConfusion hnc
    · rfl
  rw [findParagraphEnd, h2]
  exact hc

/-- An unclosed paragraph ends the paragraph loop with nothing more
emitted: if an open tag is found at or after `pos` but no close tag exists
at or after it, the loop returns the empty continuation. -/
theorem parseXmlLoop_no_close {s : List Char} {pos pStart : Nat}
    (ho : idxFrom wpOpenTag s pos = some pStart)
    (hc : idxFrom wpCloseTag s pStart = none) :
    parseXmlLoop s pos = [] := by
  rw [parseXmlLoop]
  split
  · split
    · rfl
    · next pStart' h1 =>
      obtain rfl : pStart' = pStart := by rw [ho] at h1; exact (Option.some.inj h1).symm
      split
      · rfl
      · next pEnd h2 =>
        rw [findParagraphEnd_none_of_no_close hc] at h2
        exact Option.noConfusion h2
  · rfl

/-- An unclosed run ends the run loop with nothing more emitted. -/
theorem runsLoop_no_close {pc : List Char} {runPos rs : Nat}
    (ho : combineStarts (idxFrom wrOpenBare pc runPos) (idxFrom wrOpenAttr pc runPos) = some rs)
    (hc : idxFrom wrCloseTag pc rs = none) :
    runsLoop pc runPos = [] := by
  rw [runsLoop]
  split
  · split
    · rfl
    · next rs' h1 =>
      obtain rfl : rs' = rs := by rw [ho] at h1; exact (Option.some.inj h1).symm
      split
      · rfl
      · next re h4 =>
        rw [hc] at h4
        exact Option.noConfusion h4
  · rfl

/-- Counterexample for C7: the input `<w:p><w:r><w:t>Hi</w:t></w:r>` (an
open paragraph with no matching close tag) parses to the empty-document
default `<p></p>` — the unclosed region's content `"Hi"` does not
contribute to the output, instead of being truncated at the text's end and
kept. -/
theorem unclosed_region_dropped_counterexample :
    parseDocumentXml "<w:p><w:r><w:t>Hi</w:t></w:r>".toList = "<p></p>".toList ∧
    ¬ "Hi".toList <:+: parseDocumentXml "<w:p><w:r><w:t>Hi</w:t></w:r>".toList := by
  have hl : parseXmlLoop "<w:p><w:r><w:t>Hi</w:t></w:r>".toList 0 = [] :=
    parseXmlLoop_no_close
      (show idxFrom wpOpenTag "<w:p><w:r><w:t>Hi</w:t></w:r>".toList 0 = some 0 by decide)
      (by decide)
  have hmain : parseDocumentXml "<w:p><w:r><w:t>Hi</w:t></w:r>".toList = "<p></p>".toList := by
    rw [parseDocumentXml, hl]
    rfl
  rw [hmain]
  exact ⟨rfl, by decide⟩

/-- Claim C7 (amended): when a paragraph or run open tag is found but no
matching close tag exists before the end of the text, the scanner abandons
the region — the paragraph loop (and likewise the run loop) stops and the
unclosed region's content contributes nothing — and no error is raised. -/
theorem unclosed_regions_dropped :
    (∀ (s : List Char) (pos pStart : Nat), idxFrom wpOpenTag s pos = some pStart →
      idxFrom wpCloseTag s pStart = none → parseXmlLoop s pos = []) ∧
    (∀ (pc : List Char) (runPos rs : Nat),
      combineStarts (idxFrom wrOpenBare pc runPos) (idxFrom wrOpenAttr pc runPos) = some rs →
      idxFrom wrCloseTag pc rs = none → runsLoop pc runPos = []) :=
  ⟨fun _ _ _ ho hc => parseXmlLoop_no_close ho hc,
   fun _ _ _ ho hc => runsLoop_no_close ho hc⟩

/-- Witness for the amended C7: the concrete unclosed paragraph and an
unclosed run. -/
theorem unclosed_regions_dropped_witness :
    parseXmlLoop "<w:p><w:r><w:t>Hi</w:t></w:r>".toList 0 = [] ∧
    runsLoop "<w:r><w:t>Hi</w:t>".toList 0 = [] :=
  ⟨unclosed_regions_dropped.1 _ 0 0 (by decide) (by decide),
   unclosed_regions_dropped.2 _ 0 0 (by decide) (by decide)⟩

/-- Claim C10: the scanning loops terminate on every input because each
iteration strictly advances its cursor past the close tag it consumed (and
the consumed region lies inside the input), and the document parse is a
total function of its input. -/
theorem scanning_loops_terminate :
    (∀ (s : List Char) (pos pStart pEnd : Nat), idxFrom wpOpenTag s pos = some pStart →
      findParagraphEnd s pStart = some pEnd → pos < pEnd + 6 ∧ pEnd + 6 ≤ s.length) ∧
    (∀ (pc : List Char) (runPos rs re : Nat),
      combineStarts (idxFrom wrOpenBare pc runPos) (idxFrom wrOpenAttr pc runPos) = some rs →
      idxFrom wrCloseTag pc rs = some re → runPos < re + 6 ∧ re + 6 ≤ pc.length) ∧
    (∀ s : List Char, ∃ html, parseDocumentXml s = html) := by
  refine ⟨?_, ?_, fun s => ⟨_, rfl⟩⟩
  · intro s pos pStart pEnd ho he
    have h1 := idxFrom_some (show wpOpenTag ≠ [] by decide) ho
    have h2 := findParagraphEnd_some_bounds he
    omega
  · intro pc runPos rs re ho hc
    have h6 := idxFrom_some (show wrCloseTag ≠ [] by decide) hc
    have hl6 : wrCloseTag.length = 6 := by decide
    rcases combineStarts_some ho with h5 | h5
    · have := idxFrom_some (show wrOpenBare ≠ [] by decide) h5
      omega
    · have := idxFrom_some (show wrOpenAttr ≠ [] by decide) h5
      omega

/-- Witness for C10: concrete loop-progress instances. -/
theorem scanning_loops_terminate_witness :
    (0 < 5 + 6 ∧ 5 + 6 ≤ ("<w:p></w:p>".toList).length) ∧
    (0 < 5 + 6 ∧ 5 + 6 ≤ ("<w:r></w:r>".toList).length) := by
  have hcl : findCloseLoop "<w:p></w:p>".toList 4 1 = some 5 := by
    rw [findCloseLoop, if_pos (by decide)]
    split
    · next hnc =>
      rw [show idxFrom wpCloseTag "<w:p></w:p>".toList 4 = some 5 from by decide] at hnc
      exact Option.noConfusion hnc
    · next nc hnc =>
      obtain rfl : nc = 5 := by
        rw [show idxFrom wpCloseTag "<w:p></w:p>".toList 4 = some 5 from by decide] at hnc
        exact (Option.some.inj hnc).symm
      split
      · next no hno =>
        rw [show idxFrom wpOpenTag "<w:p></w:p>".toList 4 = none from by decide] at hno
        exact Option.noConfusion hno
      · rfl
  have hfe : findParagraphEnd "<w:p></w:p>".toList 0 = some 5 := by
    rw [findParagraphEnd, hcl]
  exact ⟨scanning_loops_terminate.1 _ 0 0 5 (by decide) hfe,
    scanning_loops_terminate.2.1 _ 0 0 5 (by decide) (by decide)⟩

/-! ### Positional `firstOcc` computation lemmas -/

theorem firstOcc_skip_char {pat : List Char} {c : Char} {l : List Char}
    (h : pat.isPrefixOf (c :: l) = false) :
    firstOcc pat (c :: l) = (firstOcc pat l).map (· + 1) := by
  rw [firstOcc, if_neg (by simp [h])]

theorem firstOcc_found {pat l : List Char} (h : pat.isPrefixOf l = true) :
    firstOcc pat l = some 0 := by
  match l with
  | [] =>
    have hp : pat = [] := by
      cases pat with
      | nil => rfl
      | cons p ps => simp [List.isPrefixOf] at h
    simp [firstOcc, hp]
  | c :: rest => rw [firstOcc, if_pos h]

theorem isPrefixOf_append_self (pat z : List Char) : pat.isPrefixOf (pat ++ z) = true :=
  List.isPrefixOf_iff_prefix.mpr ⟨z, rfl⟩

theorem firstOcc_skip_noangle {ps : List Char} {x y : List Char}
    (hx : ∀ ch ∈ x, ch ≠ '<') :
    firstOcc ('<' :: ps) (x ++ y) = (firstOcc ('<' :: ps) y).map (· + x.length) := by
  induction x with
  | nil => simp
  | cons d x ih =>
    have hd : d ≠ '<' := hx d (by simp)
    have hd' : (('<' : Char) == d) = false := beq_eq_false_iff_ne.mpr (Ne.symm hd)
    rw [List.cons_append, firstOcc_skip_char (by simp [List.isPrefixOf, hd']),
      ih (fun ch hm => hx ch (by simp [hm]))]
    cases firstOcc ('<' :: ps) y <;> simp
    omega

theorem firstOcc_skip_lit {pat : List Char} (lit y : List Char)
    (h : ∀ i, i < lit.length → pat.isPrefixOf (lit.drop i ++ y) = false) :
    firstOcc pat (lit ++ y) = (firstOcc pat y).map (· + lit.length) := by
  induction lit with
  | nil => simp
  | cons d lit ih =>
    rw [List.cons_append, firstOcc_skip_char (by simpa using h 0 (by simp)),
      ih (fun i hi => by simpa using h (i + 1) (by simp only [List.length_cons]; omega))]
    cases firstOcc pat y <;> simp
    omega

theorem firstOcc_skip_head {pat x y : List Char} (hx : ∀ ch ∈ x, ch ≠ '<')
    (hpat : pat.head? = some '<') :
    firstOcc pat (x ++ y) = (firstOcc pat y).map (· + x.length) := by
  obtain ⟨ps, rfl⟩ : ∃ ps, pat = '<' :: ps := by
    cases pat with
    | nil => simp at hpat
    | cons p ps =>
      simp only [List.head?_cons, Option.some.injEq] at hpat
      exact ⟨ps, by rw [hpat]⟩
  exact firstOcc_skip_noangle hx

/-! ### C6: nested-region depth tracking -/

/-- The claim's input family for C6: a paragraph whose body contains a
same-named nested paragraph element before the outer close tag, with
angle-bracket-free filler text `a`, `b`, `c` (XML text nodes cannot contain
a raw `<`). -/
def nestedParagraphDoc (a b c : List Char) : List Char :=
  "<w:p>".toList ++ (a ++ ("<w:p>".toList ++ (b ++ ("</w:p>".toList ++ (c ++ "</w:p>".toList)))))

theorem nestedParagraphDoc_length (a b c : List Char) :
    (nestedParagraphDoc a b c).length = 22 + a.length + b.length + c.length := by
  simp only [nestedParagraphDoc, List.length_append]
  have l1 : ("<w:p>".toList).length = 5 := rfl
  have l2 : ("</w:p>".toList).length = 6 := rfl
  omega

theorem nested_drop4 (a b c : List Char) :
    (nestedParagraphDoc a b c).drop 4 =
      '>' :: (a ++ ("<w:p>".toList ++ (b ++ ("</w:p>".toList ++ (c ++ "</w:p>".toList))))) := rfl

theorem nested_drop5a (a b c : List Char) :
    (nestedParagraphDoc a b c).drop (5 + a.length) =
      "<w:p>".toList ++ (b ++ ("</w:p>".toList ++ (c ++ "</w:p>".toList))) := by
  have h1 : nestedParagraphDoc a b c =
      ("<w:p>".toList ++ a) ++ ("<w:p>".toList ++ (b ++ ("</w:p>".toList ++ (c ++ "</w:p>".toList)))) := by
    simp [nestedParagraphDoc, List.append_assoc]
  rw [h1, show 5 + a.length = ("<w:p>".toList ++ a).length by simp [List.length_append]; omega,
    List.drop_left]

theorem nested_drop9 (a b c : List Char) :
    (nestedParagraphDoc a b c).drop (9 + a.length) =
      '>' :: (b ++ ("</w:p>".toList ++ (c ++ "</w:p>".toList))) := by
  have h2 : (nestedParagraphDoc a b c).drop (9 + a.length) =
      ((nestedParagraphDoc a b c).drop (5 + a.length)).drop 4 := by
    rw [List.drop_drop]
    congr 1
    omega
  rw [h2, nested_drop5a]
  rfl

theorem nested_drop16 (a b c : List Char) :
    (nestedParagraphDoc a b c).drop (16 + a.length + b.length) =
      c ++ "</w:p>".toList := by
  have h1 : nestedParagraphDoc a b c =
      ("<w:p>".toList ++ (a ++ ("<w:p>".toList ++ (b ++ "</w:p>".toList)))) ++
        (c ++ "</w:p>".toList) := by
    simp [nestedParagraphDoc, List.append_assoc]
  rw [h1, show 16 + a.length + b.length =
      ("<w:p>".toList ++ (a ++ ("<w:p>".toList ++ (b ++ "</w:p>".toList)))).length by
    simp [List.length_append]; omega, List.drop_left]

theorem isPrefixOf_cons_false {p c : Char} {ps l : List Char} (h : (p == c) = false) :
    (p :: ps).isPrefixOf (c :: l) = false := by
  simp [List.isPrefixOf, h]

theorem isPrefixOf_cons2_false {p q c d : Char} {ps l : List Char} (h : (q == d) = false) :
    (p :: q :: ps).isPrefixOf (c :: d :: l) = false := by
  simp [List.isPrefixOf, h]

theorem wpOpen_not_at_gt (l : List Char) : wpOpenTag.isPrefixOf ('>' :: l) = false := by
  rw [show wpOpenTag = '<' :: 'w' :: ':' :: 'p' :: [] from rfl]
  exact isPrefixOf_cons_false (by decide)

theorem wpClose_not_at_gt (l : List Char) : wpCloseTag.isPrefixOf ('>' :: l) = false := by
  rw [show wpCloseTag = '<' :: '/' :: 'w' :: ':' :: 'p' :: '>' :: [] from rfl]
  exact isPrefixOf_cons_false (by decide)

theorem firstOcc_wpOpen_skip_close (y : List Char) :
    firstOcc wpOpenTag ("</w:p>".toList ++ y) = (firstOcc wpOpenTag y).map (· + 6) := by
  rw [show wpOpenTag = '<' :: 'w' :: ':' :: 'p' :: [] from rfl]
  show firstOcc _ ('<' :: '/' :: 'w' :: ':' :: 'p' :: '>' :: y) = _
  rw [firstOcc_skip_char (isPrefixOf_cons2_false (by decide)),
    firstOcc_skip_char (isPrefixOf_cons_false (by decide)),
    firstOcc_skip_char (isPrefixOf_cons_false (by decide)),
    firstOcc_skip_char (isPrefixOf_cons_false (by decide)),
    firstOcc_skip_char (isPrefixOf_cons_false (by decide)),
    firstOcc_skip_char (isPrefixOf_cons_false (by decide))]
  cases firstOcc ('<' :: 'w' :: ':' :: 'p' :: []) y <;> simp
  all_goals omega

theorem firstOcc_wpClose_skip_open (y : List Char) :
    firstOcc wpCloseTag ("<w:p>".toList ++ y) = (firstOcc wpCloseTag y).map (· + 5) := by
  rw [show wpCloseTag = '<' :: '/' :: 'w' :: ':' :: 'p' :: '>' :: [] from rfl]
  show firstOcc _ ('<' :: 'w' :: ':' :: 'p' :: '>' :: y) = _
  rw [firstOcc_skip_char (isPrefixOf_cons2_false (by decide)),
    firstOcc_skip_char (isPrefixOf_cons_false (by decide)),
    firstOcc_skip_char (isPrefixOf_cons_false (by decide)),
    firstOcc_skip_char (isPrefixOf_cons_false (by decide)),
    firstOcc_skip_char (isPrefixOf_cons_false (by decide))]
  cases firstOcc ('<' :: '/' :: 'w' :: ':' :: 'p' :: '>' :: []) y <;> simp
  all_goals omega

theorem firstOcc_wpOpen_in_open (y : List Char) :
    firstOcc wpOpenTag ("<w:p>".toList ++ y) = some 0 :=
  firstOcc_found (List.isPrefixOf_iff_prefix.mpr ⟨'>' :: y, rfl⟩)

theorem firstOcc_wpClose_in_close (y : List Char) :
    firstOcc wpCloseTag ("</w:p>".toList ++ y) = some 0 :=
  firstOcc_found (List.isPrefixOf_iff_prefix.mpr ⟨y, rfl⟩)

theorem firstOcc_skip_text (pat : List Char) {x y : List Char} (hx : ∀ ch ∈ x, ch ≠ '<')
    (hpat : pat.head? = some '<') :
    firstOcc pat (x ++ y) = (firstOcc pat y).map (· + x.length) :=
  firstOcc_skip_head hx hpat

theorem nested_idx_open4 (a b c : List Char) (ha : ∀ ch ∈ a, ch ≠ '<') :
    idxFrom wpOpenTag (nestedParagraphDoc a b c) 4 = some (5 + a.length) := by
  rw [idxFrom, nested_drop4, firstOcc_skip_char (wpOpen_not_at_gt _),
    firstOcc_skip_text wpOpenTag ha rfl, firstOcc_wpOpen_in_open]
  simp
  omega

theorem nested_idx_close4 (a b c : List Char) (ha : ∀ ch ∈ a, ch ≠ '<')
    (hb : ∀ ch ∈ b, ch ≠ '<') :
    idxFrom wpCloseTag (nestedParagraphDoc a b c) 4 = some (10 + a.length + b.length) := by
  rw [idxFrom, nested_drop4, firstOcc_skip_char (wpClose_not_at_gt _),
    firstOcc_skip_text wpCloseTag ha rfl, firstOcc_wpClose_skip_open,
    firstOcc_skip_text wpCloseTag hb rfl, firstOcc_wpClose_in_close]
  simp
  omega

theorem nested_idx_open9 (a b c : List Char) (hb : ∀ ch ∈ b, ch ≠ '<')
    (hc : ∀ ch ∈ c, ch ≠ '<') :
    idxFrom wpOpenTag (nestedParagraphDoc a b c) (9 + a.length) = none := by
  rw [idxFrom, nested_drop9, firstOcc_skip_char (wpOpen_not_at_gt _),
    firstOcc_skip_text wpOpenTag hb rfl, firstOcc_wpOpen_skip_close,
    firstOcc_skip_text wpOpenTag hc rfl,
    show firstOcc wpOpenTag ("</w:p>".toList) = none from by decide]
  simp

theorem nested_idx_close9 (a b c : List Char) (hb : ∀ ch ∈ b, ch ≠ '<') :
    idxFrom wpCloseTag (nestedParagraphDoc a b c) (9 + a.length) =
      some (10 + a.length + b.length) := by
  rw [idxFrom, nested_drop9, firstOcc_skip_char (wpClose_not_at_gt _),
    firstOcc_skip_text wpCloseTag hb rfl, firstOcc_wpClose_in_close]
  simp
  omega

theorem nested_idx_close16 (a b c : List Char) (hc : ∀ ch ∈ c, ch ≠ '<') :
    idxFrom wpCloseTag (nestedParagraphDoc a b c) (16 + a.length + b.length) =
      some (16 + a.length + b.length + c.length) := by
  rw [idxFrom, nested_drop16, firstOcc_skip_text wpCloseTag hc rfl,
    show firstOcc wpCloseTag ("</w:p>".toList) = some 0 from by decide]
  simp
  omega

theorem nested_idx_open16 (a b c : List Char) (hc : ∀ ch ∈ c, ch ≠ '<') :
    idxFrom wpOpenTag (nestedParagraphDoc a b c) (16 + a.length + b.length) = none := by
  rw [idxFrom, nested_drop16, firstOcc_skip_text wpOpenTag hc rfl,
    show firstOcc wpOpenTag ("</w:p>".toList) = none from by decide]
  simp

theorem nested_idx_close0 (a b c : List Char) (ha : ∀ ch ∈ a, ch ≠ '<')
    (hb : ∀ ch ∈ b, ch ≠ '<') :
    idxFrom wpCloseTag (nestedParagraphDoc a b c) 0 = some (10 + a.length + b.length) := by
  rw [idxFrom, List.drop_zero, nestedParagraphDoc, firstOcc_wpClose_skip_open,
    firstOcc_skip_text wpCloseTag ha rfl, firstOcc_wpClose_skip_open,
    firstOcc_skip_text wpCloseTag hb rfl, firstOcc_wpClose_in_close]
  simp
  omega

theorem nested_findCloseLoop (a b c : List Char) (ha : ∀ ch ∈ a, ch ≠ '<')
    (hb : ∀ ch ∈ b, ch ≠ '<') (hc : ∀ ch ∈ c, ch ≠ '<') :
    findCloseLoop (nestedParagraphDoc a b c) 4 1 =
      some (16 + a.length + b.length + c.length) := by
  have hlen := nestedParagraphDoc_length a b c
  rw [findCloseLoop, if_pos (And.intro (by rw [hlen]; omega) (by omega))]
  split
  · next hnc =>
    rw [nested_idx_close4 a b c ha hb] at hnc
    exact Option.noConfusion hnc
  · next nc hnc =>
    obtain rfl : nc = 10 + a.length + b.length := by
      rw [nested_idx_close4 a b c ha hb] at hnc
      exact (Option.some.inj hnc).symm
    split
    · next no hno =>
      obtain rfl : no = 5 + a.length := by
        rw [nested_idx_open4 a b c ha] at hno
        exact (Option.some.inj hno).symm
      rw [if_pos (by omega)]
      rw [show 5 + a.length + 4 = 9 + a.length from by omega]
      rw [findCloseLoop, if_pos (And.intro (by rw [hlen]; omega) (by omega))]
      split
      · next hnc2 =>
        rw [nested_idx_close9 a b c hb] at hnc2
        exact Option.noConfusion hnc2
      · next nc2 hnc2 =>
        obtain rfl : nc2 = 10 + a.length + b.length := by
          rw [nested_idx_close9 a b c hb] at hnc2
          exact (Option.some.inj hnc2).symm
        split
        · next no2 hno2 =>
          rw [nested_idx_open9 a b c hb hc] at hno2
          exact Option.noConfusion hno2
        · rw [if_neg (by omega)]
          rw [show 10 + a.length + b.length + 6 = 16 + a.length + b.length from by omega]
          rw [findCloseLoop, if_pos (And.intro (by rw [hlen]; omega) (by omega))]
          split
          · next hnc3 =>
            rw [nested_idx_close16 a b c hc] at hnc3
            exact Option.noConfusion hnc3
          · next nc3 hnc3 =>
            obtain rfl : nc3 = 16 + a.length + b.length + c.length := by
              rw [nested_idx_close16 a b c hc] at hnc3
              exact (Option.some.inj hnc3).symm
            split
            · next no3 hno3 =>
              rw [nested_idx_open16 a b c hc] at hno3
              exact Option.noConfusion hno3
            · rw [if_pos rfl]
    · next hno =>
      rw [nested_idx_open4 a b c ha] at hno
      exact Option.noConfusion hno

/-- Claim C6 (amended): for a paragraph `<w:p>a<w:p>b</w:p>c</w:p>` whose
body contains a nested paragraph open tag before the outer close tag and
in which every occurrence of the search prefix `<w:p` is an actual
paragraph tag (the fillers contain no `<`), the region scanner returns the
full substring from the outer open tag to its matching close tag inclusive
(tracking nesting depth), and does not truncate the region at the first
inner close tag (which sits strictly earlier, at index `10+|a|+|b|`).
The restriction is necessary: any other `<w:p`-prefixed tag such as
`<w:pPr>` increments the depth with no matching decrement, the loop fails,
and the fallback truncates at the first close tag (see the
counterexample). -/
theorem nested_region_depth_tracking (a b c : List Char) (ha : ∀ ch ∈ a, ch ≠ '<')
    (hb : ∀ ch ∈ b, ch ≠ '<') (hc : ∀ ch ∈ c, ch ≠ '<') :
    findParagraphEnd (nestedParagraphDoc a b c) 0 =
      some (16 + a.length + b.length + c.length) ∧
    substr (nestedParagraphDoc a b c) 0 (16 + a.length + b.length + c.length + 6) =
      nestedParagraphDoc a b c ∧
    idxFrom wpCloseTag (nestedParagraphDoc a b c) 0 = some (10 + a.length + b.length) ∧
    10 + a.length + b.length ≠ 16 + a.length + b.length + c.length := by
  refine ⟨?_, ?_, nested_idx_close0 a b c ha hb, by omega⟩
  · rw [findParagraphEnd, nested_findCloseLoop a b c ha hb hc]
  · rw [substr, List.drop_zero]
    apply List.take_of_length_le
    rw [nestedParagraphDoc_length]
    omega

/-- Witness for C6: the nested paragraph with fillers `"x"`, `"y"`, `"z"`. -/
theorem nested_region_depth_tracking_witness :
    findParagraphEnd (nestedParagraphDoc "x".toList "y".toList "z".toList) 0 =
      some (16 + 1 + 1 + 1) ∧
    substr (nestedParagraphDoc "x".toList "y".toList "z".toList) 0 (16 + 1 + 1 + 1 + 6) =
      nestedParagraphDoc "x".toList "y".toList "z".toList ∧
    idxFrom wpCloseTag (nestedParagraphDoc "x".toList "y".toList "z".toList) 0 =
      some (10 + 1 + 1) ∧
    10 + 1 + 1 ≠ 16 + 1 + 1 + 1 :=
  nested_region_depth_tracking "x".toList "y".toList "z".toList
    (by decide) (by decide) (by decide)

/-- The document body `<w:p><w:pPr>x</w:pPr><w:p>b</w:p>c</w:p>`: an outer
paragraph containing a run-properties-style `<w:pPr>` element and a nested
`<w:p>`. The first inner `</w:p>` sits at index 27; the outer balancing
close tag sits at index 34 (the whole string has length 40). -/
def pPrDoc : List Char := "<w:p><w:pPr>x</w:pPr><w:p>b</w:p>c</w:p>".toList

/-- Claim C6 (counterexample): the depth scanner truncates a nested
paragraph region early when the body contains `<w:pPr>`. The open-tag
search uses the prefix `"<w:p"` (part_003 line 63), which also matches
`<w:pPr>`, so the depth is incremented with no matching decrement, the
loop of lines 59–75 runs off the end of the string, and the fallback
`indexOf("</w:p>", pStart)` of line 78 returns the *first inner* close tag
(index 27) instead of the outer balancing one (index 34): the extracted
region stops at `...<w:p>b</w:p>` and is not the full open-to-matching-
close substring. -/
theorem nested_region_truncated_counterexample :
    findParagraphEnd pPrDoc 0 = some 27 ∧
    idxFrom wpCloseTag pPrDoc 0 = some 27 ∧
    idxFrom wpCloseTag pPrDoc 28 = some 34 ∧
    substr pPrDoc 0 (27 + 6) = "<w:p><w:pPr>x</w:pPr><w:p>b</w:p>".toList ∧
    substr pPrDoc 0 (27 + 6) ≠ pPrDoc := by
  have s1 : findCloseLoop pPrDoc 4 1 = findCloseLoop pPrDoc 9 2 := by
    rw [findCloseLoop, if_pos (show 4 < pPrDoc.length ∧ 0 < 1 by decide)]
    split
    · next h2 => exact absurd h2 (by decide)
    · next nc h2 =>
      rw [show idxFrom wpCloseTag pPrDoc 4 = some 27 from by decide] at h2
      obtain rfl : nc = 27 := (Option.some.inj h2).symm
      split
      · next no h3 =>
        rw [show idxFrom wpOpenTag pPrDoc 4 = some 5 from by decide] at h3
        obtain rfl : no = 5 := (Option.some.inj h3).symm
        rw [if_pos (by omega)]
      · next h3 =>
        rw [show idxFrom wpOpenTag pPrDoc 4 = some 5 from by decide] at h3
        exact Option.noConfusion h3
  have s2 : findCloseLoop pPrDoc 9 2 = findCloseLoop pPrDoc 25 3 := by
    rw [findCloseLoop, if_pos (show 9 < pPrDoc.length ∧ 0 < 2 by decide)]
    split
    · next h2 => exact absurd h2 (by decide)
    · next nc h2 =>
      rw [show idxFrom wpCloseTag pPrDoc 9 = some 27 from by decide] at h2
      obtain rfl : nc = 27 := (Option.some.inj h2).symm
      split
      · next no h3 =>
        rw [show idxFrom wpOpenTag pPrDoc 9 = some 21 from by decide] at h3
        obtain rfl : no = 21 := (Option.some.inj h3).symm
        rw [if_pos (by omega)]
      · next h3 =>
        rw [show idxFrom wpOpenTag pPrDoc 9 = some 21 from by decide] at h3
        exact Option.noConfusion h3
  have s3 : findCloseLoop pPrDoc 25 3 = findCloseLoop pPrDoc 33 2 := by
    rw [findCloseLoop, if_pos (show 25 < pPrDoc.length ∧ 0 < 3 by decide)]
    split
    · next h2 => exact absurd h2 (by decide)
    · next nc h2 =>
      rw [show idxFrom wpCloseTag pPrDoc 25 = some 27 from by decide] at h2
      obtain rfl : nc = 27 := (Option.some.inj h2).symm
      split
      · next no h3 =>
        rw [show idxFrom wpOpenTag pPrDoc 25 = none from by decide] at h3
        exact Option.noConfusion h3
      · rw [if_neg (by omega)]
  have s4 : findCloseLoop pPrDoc 33 2 = findCloseLoop pPrDoc 40 1 := by
    rw [findCloseLoop, if_pos (show 33 < pPrDoc.length ∧ 0 < 2 by decide)]
    split
    · next h2 => exact absurd h2 (by decide)
    · next nc h2 =>
      rw [show idxFrom wpCloseTag pPrDoc 33 = some 34 from by decide] at h2
      obtain rfl : nc = 34 := (Option.some.inj h2).symm
      split
      · next no h3 =>
        rw [show idxFrom wpOpenTag pPrDoc 33 = none from by decide] at h3
        exact Option.noConfusion h3
      · rw [if_neg (by omega)]
  have s5 : findCloseLoop pPrDoc 40 1 = none := by
    rw [findCloseLoop, if_neg (by decide)]
  refine ⟨?_, by decide, by decide, by decide, by decide⟩
  rw [findParagraphEnd, show (0 + 4 : Nat) = 4 from rfl, s1, s2, s3, s4, s5]
  decide

/-! ### C5: list grouping -/

/-- The emitted block for a list item with inner HTML `t`. -/
def liBlockOf (t : List Char) : List Char := "<li>".toList ++ (t ++ "</li>".toList)

theorem firstOcc_liClose_in (rest : List Char) :
    firstOcc liClose ("</li>".toList ++ rest) = some 0 :=
  firstOcc_found (isPrefixOf_append_self liClose rest)

theorem takeLiBlock_block {t : List Char} (ht : ∀ ch ∈ t, ch ≠ '<') (rest : List Char) :
    takeLiBlock (liBlockOf t ++ rest) = some (liBlockOf t, rest) := by
  have hform : liBlockOf t ++ rest = liOpen ++ (t ++ ("</li>".toList ++ rest)) := by
    simp [liBlockOf, liOpen, List.append_assoc]
  rw [hform, takeLiBlock, if_pos (isPrefixOf_append_self liOpen _)]
  have hdrop : (liOpen ++ (t ++ ("</li>".toList ++ rest))).drop 4 =
      t ++ ("</li>".toList ++ rest) := rfl
  rw [hdrop, firstOcc_skip_text liClose ht rfl, firstOcc_liClose_in]
  have hlen : 0 + t.length + 9 = (liOpen ++ (t ++ "</li>".toList)).length := by
    simp [liOpen, List.length_append] <;> omega
  have hgroup : liOpen ++ (t ++ ("</li>".toList ++ rest)) =
      (liOpen ++ (t ++ "</li>".toList)) ++ rest := by
    simp [List.append_assoc]
  simp only [Option.map_some']
  rw [hlen, hgroup, List.take_left, List.drop_left]
  have : liOpen ++ (t ++ "</li>".toList) = liBlockOf t := by
    simp [liBlockOf, liOpen]
  rw [this]

theorem takeLiRun_none_of_not_liOpen {l : List Char} (h : liOpen.isPrefixOf l = false) :
    takeLiRun l = none := by
  rw [takeLiRun_eq, takeLiBlock, if_neg (by simp [h])]

theorem takeLiRun_block {t : List Char} (ht : ∀ ch ∈ t, ch ≠ '<') (rest : List Char) :
    takeLiRun (liBlockOf t ++ rest) =
      match takeLiRun rest with
      | some (bs, rest2) => some (liBlockOf t ++ bs, rest2)
      | none => some (liBlockOf t, rest) := by
  rw [takeLiRun_eq, takeLiBlock_block ht rest]

theorem wrapLi_run {l run rest2 : List Char} (h : takeLiRun l = some (run, rest2)) :
    wrapLi l = "<ul>".toList ++ run ++ "</ul>".toList ++ wrapLi rest2 := by
  match l with
  | [] => exact absurd h (by rw [show takeLiRun ([] : List Char) = none from rfl]; simp)
  | c :: rest =>
    rw [wrapLi_cons, h]

theorem wrapLi_copy_char {d : Char} {l : List Char} (h : liOpen.isPrefixOf (d :: l) = false) :
    wrapLi (d :: l) = d :: wrapLi l := by
  rw [wrapLi_cons, takeLiRun_none_of_not_liOpen h]

theorem firstOcc_emptyP_skip_ulOpen (y : List Char) :
    firstOcc emptyP ("<ul>".toList ++ y) = (firstOcc emptyP y).map (· + 4) := by
  rw [show emptyP = '<':: 'p':: '>':: '<':: 'b':: 'r':: '>':: '<':: '/':: 'p':: '>'::[] from rfl]
  show firstOcc _ ('<' :: 'u' :: 'l' :: '>' :: y) = _
  rw [firstOcc_skip_char (isPrefixOf_cons2_false (by decide)),
    firstOcc_skip_char (isPrefixOf_cons_false (by decide)),
    firstOcc_skip_char (isPrefixOf_cons_false (by decide)),
    firstOcc_skip_char (isPrefixOf_cons_false (by decide))]
  cases firstOcc ('<':: 'p':: '>':: '<':: 'b':: 'r':: '>':: '<':: '/':: 'p':: '>'::[]) y <;> simp
  all_goals omega

theorem firstOcc_emptyP_skip_liOpen (y : List Char) :
    firstOcc emptyP ("<li>".toList ++ y) = (firstOcc emptyP y).map (· + 4) := by
  rw [show emptyP = '<':: 'p':: '>':: '<':: 'b':: 'r':: '>':: '<':: '/':: 'p':: '>'::[] from rfl]
  show firstOcc _ ('<' :: 'l' :: 'i' :: '>' :: y) = _
  rw [firstOcc_skip_char (isPrefixOf_cons2_false (by decide)),
    firstOcc_skip_char (isPrefixOf_cons_false (by decide)),
    firstOcc_skip_char (isPrefixOf_cons_false (by decide)),
    firstOcc_skip_char (isPrefixOf_cons_false (by decide))]
  cases firstOcc ('<':: 'p':: '>':: '<':: 'b':: 'r':: '>':: '<':: '/':: 'p':: '>'::[]) y <;> simp
  all_goals omega

theorem firstOcc_emptyP_skip_liClose (y : List Char) :
    firstOcc emptyP ("</li>".toList ++ y) = (firstOcc emptyP y).map (· + 5) := by
  rw [show emptyP = '<':: 'p':: '>':: '<':: 'b':: 'r':: '>':: '<':: '/':: 'p':: '>'::[] from rfl]
  show firstOcc _ ('<' :: '/' :: 'l' :: 'i' :: '>' :: y) = _
  rw [firstOcc_skip_char (isPrefixOf_cons2_false (by decide)),
    firstOcc_skip_char (isPrefixOf_cons_false (by decide)),
    firstOcc_skip_char (isPrefixOf_cons_false (by decide)),
    firstOcc_skip_char (isPrefixOf_cons_false (by decide)),
    firstOcc_skip_char (isPrefixOf_cons_false (by decide))]
  cases firstOcc ('<':: 'p':: '>':: '<':: 'b':: 'r':: '>':: '<':: '/':: 'p':: '>'::[]) y <;> simp
  all_goals omega

theorem firstOcc_emptyP_skip_ulClose (y : List Char) :
    firstOcc emptyP ("</ul>".toList ++ y) = (firstOcc emptyP y).map (· + 5) := by
  rw [show emptyP = '<':: 'p':: '>':: '<':: 'b':: 'r':: '>':: '<':: '/':: 'p':: '>'::[] from rfl]
  show firstOcc _ ('<' :: '/' :: 'u' :: 'l' :: '>' :: y) = _
  rw [firstOcc_skip_char (isPrefixOf_cons2_false (by decide)),
    firstOcc_skip_char (isPrefixOf_cons_false (by decide)),
    firstOcc_skip_char (isPrefixOf_cons_false (by decide)),
    firstOcc_skip_char (isPrefixOf_cons_false (by decide)),
    firstOcc_skip_char (isPrefixOf_cons_false (by decide))]
  cases firstOcc ('<':: 'p':: '>':: '<':: 'b':: 'r':: '>':: '<':: '/':: 'p':: '>'::[]) y <;> simp
  all_goals omega

theorem firstOcc_emptyP_skip_pClose (y : List Char) :
    firstOcc emptyP ("</p>".toList ++ y) = (firstOcc emptyP y).map (· + 4) := by
  rw [show emptyP = '<':: 'p':: '>':: '<':: 'b':: 'r':: '>':: '<':: '/':: 'p':: '>'::[] from rfl]
  show firstOcc _ ('<' :: '/' :: 'p' :: '>' :: y) = _
  rw [firstOcc_skip_char (isPrefixOf_cons2_false (by decide)),
    firstOcc_skip_char (isPrefixOf_cons_false (by decide)),
    firstOcc_skip_char (isPrefixOf_cons_false (by decide)),
    firstOcc_skip_char (isPrefixOf_cons_false (by decide))]
  cases firstOcc ('<':: 'p':: '>':: '<':: 'b':: 'r':: '>':: '<':: '/':: 'p':: '>'::[]) y <;> simp
  all_goals omega

theorem firstOcc_emptyP_skip_pOpen {x0 : Char} (hx0 : x0 ≠ '<') (y : List Char) :
    firstOcc emptyP ("<p>".toList ++ (x0 :: y)) =
      (firstOcc emptyP (x0 :: y)).map (· + 3) := by
  have hb0 : (('<' : Char) == x0) = false := beq_eq_false_iff_ne.mpr (Ne.symm hx0)
  rw [show emptyP = '<':: 'p':: '>':: '<':: 'b':: 'r':: '>':: '<':: '/':: 'p':: '>'::[] from rfl]
  show firstOcc _ ('<' :: 'p' :: '>' :: x0 :: y) = _
  rw [firstOcc_skip_char (by simp [List.isPrefixOf, hb0]),
    firstOcc_skip_char (isPrefixOf_cons_false (by decide)),
    firstOcc_skip_char (isPrefixOf_cons_false (by decide))]
  cases firstOcc ('<':: 'p':: '>':: '<':: 'b':: 'r':: '>':: '<':: '/':: 'p':: '>'::[]) (x0 :: y) <;> simp
  all_goals omega

theorem collapse_noop {h : List Char} (hno : firstOcc emptyP h = none) :
    collapseEmptyParagraphs h = h := by
  induction h with
  | nil => rfl
  | cons c rest ih =>
    have key := firstOcc_none_iff.mp hno
    have h0 : emptyP.isPrefixOf (c :: rest) = false := by
      have hk := key 0
      simp only [List.drop_zero] at hk
      rcases hb : emptyP.isPrefixOf (c :: rest)
      · rfl
      · exact absurd hb hk
    have hcount : countEmptyP (c :: rest) = 0 := by
      rw [countEmptyP_eq, if_neg (by simp [h0])]
    rw [collapseEmptyParagraphs_cons, if_neg (by omega)]
    have hrest : firstOcc emptyP rest = none := by
      rw [firstOcc_none_iff]
      intro j
      have := key (j + 1)
      simpa using this
    rw [ih hrest]

theorem liOpen_not_at_pOpen (l : List Char) : liOpen.isPrefixOf ('<' :: 'p' :: l) = false := by
  rw [show liOpen = '<' :: 'l' :: 'i' :: '>' :: [] from rfl]
  exact isPrefixOf_cons2_false (by decide)

theorem liOpen_not_at_slash (l : List Char) : liOpen.isPrefixOf ('<' :: '/' :: l) = false := by
  rw [show liOpen = '<' :: 'l' :: 'i' :: '>' :: [] from rfl]
  exact isPrefixOf_cons2_false (by decide)

theorem liOpen_not_at_char {d : Char} (hd : d ≠ '<') (l : List Char) :
    liOpen.isPrefixOf (d :: l) = false := by
  rw [show liOpen = '<' :: 'l' :: 'i' :: '>' :: [] from rfl]
  exact isPrefixOf_cons_false (beq_eq_false_iff_ne.mpr (Ne.symm hd))

theorem wrapLi_copy_text {x : List Char} (hx : ∀ ch ∈ x, ch ≠ '<') (rest : List Char) :
    wrapLi (x ++ rest) = x ++ wrapLi rest := by
  induction x with
  | nil => simp
  | cons d x' ih =>
    rw [List.cons_append, wrapLi_copy_char (liOpen_not_at_char (hx d (by simp)) _),
      ih (fun ch hm => hx ch (by simp [hm]))]
    rfl

theorem wrapLi_copy_pOpen (rest : List Char) :
    wrapLi ("<p>".toList ++ rest) = "<p>".toList ++ wrapLi rest := by
  show wrapLi ('<' :: 'p' :: '>' :: rest) = _
  rw [wrapLi_copy_char (liOpen_not_at_pOpen _),
    wrapLi_copy_char (liOpen_not_at_char (by decide) _),
    wrapLi_copy_char (liOpen_not_at_char (by decide) _)]
  rfl

theorem wrapLi_copy_pClose (rest : List Char) :
    wrapLi ("</p>".toList ++ rest) = "</p>".toList ++ wrapLi rest := by
  show wrapLi ('<' :: '/' :: 'p' :: '>' :: rest) = _
  rw [wrapLi_copy_char (liOpen_not_at_slash _),
    wrapLi_copy_char (liOpen_not_at_char (by decide) _),
    wrapLi_copy_char (liOpen_not_at_char (by decide) _),
    wrapLi_copy_char (liOpen_not_at_char (by decide) _)]
  rfl

/-- Claim C5: maximal runs of consecutive `<li>…</li>` blocks are each
wrapped in exactly one `<ul>…</ul>`, and runs separated by non-`<li>`
content are not merged: the paragraph sequence
`[ListItem a, ListItem b, Paragraph x, ListItem c]` (with non-empty,
angle-bracket-free inner texts) assembles to
`<ul><li>a</li><li>b</li></ul><p>x</p><ul><li>c</li></ul>`. -/
theorem list_grouping_boundary (a b x c : List Char)
    (ha : ∀ ch ∈ a, ch ≠ '<') (hb : ∀ ch ∈ b, ch ≠ '<')
    (hx : ∀ ch ∈ x, ch ≠ '<') (hc : ∀ ch ∈ c, ch ≠ '<')
    (hna : a ≠ []) (hnb : b ≠ []) (hnx : x ≠ []) (hnc : c ≠ []) :
    assembleParagraphs [ParagraphKind.listItem a, ParagraphKind.listItem b,
      ParagraphKind.paragraph x, ParagraphKind.listItem c] =
    "<ul>".toList ++ ("<li>".toList ++ (a ++ ("</li>".toList ++ ("<li>".toList ++ (b ++
      ("</li>".toList ++ ("</ul>".toList ++ ("<p>".toList ++ (x ++ ("</p>".toList ++
      ("<ul>".toList ++ ("<li>".toList ++ (c ++ ("</li>".toList ++
        "</ul>".toList)))))))))))))) := by
  obtain ⟨x0, x', rfl⟩ : ∃ x0 x', x = x0 :: x' := by
    cases x with
    | nil => exact absurd rfl hnx
    | cons x0 x' => exact ⟨x0, x', rfl⟩
  have hx0 : x0 ≠ '<' := hx x0 (by simp)
  have hE : assembleParagraphs [ParagraphKind.listItem a, ParagraphKind.listItem b,
      ParagraphKind.paragraph (x0 :: x'), ParagraphKind.listItem c] =
      postProcess (liBlockOf a ++ (liBlockOf b ++ ("<p>".toList ++ ((x0 :: x') ++
        ("</p>".toList ++ liBlockOf c))))) := by
    rw [assembleParagraphs]
    congr 1
    simp only [List.map, List.join, emitKind, liBlockOf, if_neg hna, if_neg hnb, if_neg hnc]
    rw [if_neg (by simp)]
    simp [List.append_assoc]
  have hRESTnone : takeLiRun ("<p>".toList ++ ((x0 :: x') ++
      ("</p>".toList ++ liBlockOf c))) = none :=
    takeLiRun_none_of_not_liOpen (liOpen_not_at_pOpen _)
  have hrunB : takeLiRun (liBlockOf b ++ ("<p>".toList ++ ((x0 :: x') ++
      ("</p>".toList ++ liBlockOf c)))) =
      some (liBlockOf b, "<p>".toList ++ ((x0 :: x') ++ ("</p>".toList ++ liBlockOf c))) := by
    rw [takeLiRun_block hb, hRESTnone]
  have hrunA : takeLiRun (liBlockOf a ++ (liBlockOf b ++ ("<p>".toList ++ ((x0 :: x') ++
      ("</p>".toList ++ liBlockOf c))))) =
      some (liBlockOf a ++ liBlockOf b,
        "<p>".toList ++ ((x0 :: x') ++ ("</p>".toList ++ liBlockOf c))) := by
    rw [takeLiRun_block ha, hrunB]
  have hrunC : takeLiRun (liBlockOf c) = some (liBlockOf c, []) := by
    have h1 := takeLiRun_block hc []
    rw [List.append_nil] at h1
    rw [h1, show takeLiRun ([] : List Char) = none from rfl]
  have hN : firstOcc emptyP
      ("<ul>".toList ++ ("<li>".toList ++ (a ++ ("</li>".toList ++ ("<li>".toList ++ (b ++
        ("</li>".toList ++ ("</ul>".toList ++ ("<p>".toList ++ ((x0 :: x') ++
        ("</p>".toList ++ ("<ul>".toList ++ ("<li>".toList ++ (c ++ ("</li>".toList ++
          "</ul>".toList))))))))))))))) = none := by
    rw [firstOcc_emptyP_skip_ulOpen, firstOcc_emptyP_skip_liOpen,
      firstOcc_skip_text emptyP ha rfl, firstOcc_emptyP_skip_liClose,
      firstOcc_emptyP_skip_liOpen, firstOcc_skip_text emptyP hb rfl,
      firstOcc_emptyP_skip_liClose, firstOcc_emptyP_skip_ulClose,
      List.cons_append, firstOcc_emptyP_skip_pOpen hx0, ← List.cons_append,
      firstOcc_skip_text emptyP hx rfl, firstOcc_emptyP_skip_pClose,
      firstOcc_emptyP_skip_ulOpen, firstOcc_emptyP_skip_liOpen,
      firstOcc_skip_text emptyP hc rfl, firstOcc_emptyP_skip_liClose,
      show firstOcc emptyP ("</ul>".toList) = none from by decide]
    simp
  rw [hE, postProcess, wrapLi_run hrunA, wrapLi_copy_pOpen, wrapLi_copy_text hx,
    wrapLi_copy_pClose, wrapLi_run hrunC, wrapLi_nil]
  have hWR : "<ul>".toList ++ (liBlockOf a ++ liBlockOf b) ++ "</ul>".toList ++
      ("<p>".toList ++ ((x0 :: x') ++ ("</p>".toList ++
        ("<ul>".toList ++ liBlockOf c ++ "</ul>".toList ++ [])))) =
      "<ul>".toList ++ ("<li>".toList ++ (a ++ ("</li>".toList ++ ("<li>".toList ++ (b ++
        ("</li>".toList ++ ("</ul>".toList ++ ("<p>".toList ++ ((x0 :: x') ++
        ("</p>".toList ++ ("<ul>".toList ++ ("<li>".toList ++ (c ++ ("</li>".toList ++
          "</ul>".toList)))))))))))))) := by
    simp [liBlockOf, List.append_assoc]
  rw [hWR]
  exact collapse_noop hN

/-- Witness for C5: the claim's literal instance with texts `a`, `b`, `x`,
`c`, producing exactly `<ul><li>a</li><li>b</li></ul><p>x</p><ul><li>c</li></ul>`. -/
theorem list_grouping_boundary_witness :
    assembleParagraphs [ParagraphKind.listItem "a".toList, ParagraphKind.listItem "b".toList,
      ParagraphKind.paragraph "x".toList, ParagraphKind.listItem "c".toList] =
      "<ul><li>a</li><li>b</li></ul><p>x</p><ul><li>c</li></ul>".toList := by
  have h := list_grouping_boundary "a".toList "b".toList "x".toList "c".toList
    (by decide) (by decide) (by decide) (by decide)
    (by decide) (by decide) (by decide) (by decide)
  rw [h]
  decide

/-! ### C4: post-processing idempotence -/

theorem not_prefix_of_isPrefixOf_false {x y : List Char} (h : x.isPrefixOf y = false) :
    ¬ x <+: y := by
  intro hp
  rw [List.isPrefixOf_iff_prefix.mpr hp] at h
  simp at h

theorem countEmptyP_append (z : List Char) : countEmptyP (emptyP ++ z) = 1 + countEmptyP z := by
  rw [countEmptyP_eq, if_pos (isPrefixOf_append_self emptyP z)]
  have : (emptyP ++ z).drop 11 = z := by
    rw [show 11 = emptyP.length from rfl]
    exact List.drop_left _ _
  rw [this]

theorem countEmptyP_zero_of_no_emptyP {l : List Char} (h : ¬ emptyP <+: l) :
    countEmptyP l = 0 := by
  rw [countEmptyP_eq, if_neg (by
    intro hb
    exact h (List.isPrefixOf_iff_prefix.mp hb))]

theorem countEmptyP_pos_prefix {l : List Char} (h : 0 < countEmptyP l) : emptyP <+: l := by
  by_contra hn
  rw [countEmptyP_zero_of_no_emptyP hn] at h
  omega

theorem emptyP_drop_self_overlap :
    ∀ i, 1 ≤ i → i ≤ 10 → ∀ z : List Char, ¬ (emptyP.drop i) <+: (emptyP ++ z) := by
  intro i h1 h2 z
  interval_cases i
  · exact not_prefix_of_isPrefixOf_false (isPrefixOf_cons_false (by decide))
  · exact not_prefix_of_isPrefixOf_false (isPrefixOf_cons_false (by decide))
  · exact not_prefix_of_isPrefixOf_false (isPrefixOf_cons2_false (by decide))
  · exact not_prefix_of_isPrefixOf_false (isPrefixOf_cons_false (by decide))
  · exact not_prefix_of_isPrefixOf_false (isPrefixOf_cons_false (by decide))
  · exact not_prefix_of_isPrefixOf_false (isPrefixOf_cons_false (by decide))
  · exact not_prefix_of_isPrefixOf_false (isPrefixOf_cons2_false (by decide))
  · exact not_prefix_of_isPrefixOf_false (isPrefixOf_cons_false (by decide))
  · exact not_prefix_of_isPrefixOf_false (isPrefixOf_cons_false (by decide))
  · exact not_prefix_of_isPrefixOf_false (isPrefixOf_cons_false (by decide))

theorem emptyP_no_interior_overlap :
    ∀ i, 1 ≤ i → i ≤ 10 → ∀ z : List Char, ¬ emptyP <+: (emptyP.drop i ++ z) := by
  intro i h1 h2 z
  interval_cases i
  · exact not_prefix_of_isPrefixOf_false (isPrefixOf_cons_false (by decide))
  · exact not_prefix_of_isPrefixOf_false (isPrefixOf_cons_false (by decide))
  · exact not_prefix_of_isPrefixOf_false (isPrefixOf_cons2_false (by decide))
  · exact not_prefix_of_isPrefixOf_false (isPrefixOf_cons_false (by decide))
  · exact not_prefix_of_isPrefixOf_false (isPrefixOf_cons_false (by decide))
  · exact not_prefix_of_isPrefixOf_false (isPrefixOf_cons_false (by decide))
  · exact not_prefix_of_isPrefixOf_false (isPrefixOf_cons2_false (by decide))
  · exact not_prefix_of_isPrefixOf_false (isPrefixOf_cons_false (by decide))
  · exact not_prefix_of_isPrefixOf_false (isPrefixOf_cons_false (by decide))
  · exact not_prefix_of_isPrefixOf_false (isPrefixOf_cons_false (by decide))

theorem collapse_copy_emptyP {r : List Char} (hr : countEmptyP r ≤ 1) :
    collapseEmptyParagraphs (emptyP ++ r) = emptyP ++ collapseEmptyParagraphs r := by
  have hc0 : countEmptyP ('<':: 'p':: '>':: '<':: 'b':: 'r':: '>':: '<':: '/':: 'p':: '>'::r) =
      1 + countEmptyP r := countEmptyP_append r
  have hc1 : countEmptyP ('p':: '>':: '<':: 'b':: 'r':: '>':: '<':: '/':: 'p':: '>'::r) = 0 :=
    countEmptyP_zero_of_no_emptyP (emptyP_no_interior_overlap 1 (by omega) (by omega) r)
  have hc2 : countEmptyP ('>':: '<':: 'b':: 'r':: '>':: '<':: '/':: 'p':: '>'::r) = 0 :=
    countEmptyP_zero_of_no_emptyP (emptyP_no_interior_overlap 2 (by omega) (by omega) r)
  have hc3 : countEmptyP ('<':: 'b':: 'r':: '>':: '<':: '/':: 'p':: '>'::r) = 0 :=
    countEmptyP_zero_of_no_emptyP (emptyP_no_interior_overlap 3 (by omega) (by omega) r)
  have hc4 : countEmptyP ('b':: 'r':: '>':: '<':: '/':: 'p':: '>'::r) = 0 :=
    countEmptyP_zero_of_no_emptyP (emptyP_no_interior_overlap 4 (by omega) (by omega) r)
  have hc5 : countEmptyP ('r':: '>':: '<':: '/':: 'p':: '>'::r) = 0 :=
    countEmptyP_zero_of_no_emptyP (emptyP_no_interior_overlap 5 (by omega) (by omega) r)
  have hc6 : countEmptyP ('>':: '<':: '/':: 'p':: '>'::r) = 0 :=
    countEmptyP_zero_of_no_emptyP (emptyP_no_interior_overlap 6 (by omega) (by omega) r)
  have hc7 : countEmptyP ('<':: '/':: 'p':: '>'::r) = 0 :=
    countEmptyP_zero_of_no_emptyP (emptyP_no_interior_overlap 7 (by omega) (by omega) r)
  have hc8 : countEmptyP ('/':: 'p':: '>'::r) = 0 :=
    countEmptyP_zero_of_no_emptyP (emptyP_no_interior_overlap 8 (by omega) (by omega) r)
  have hc9 : countEmptyP ('p':: '>'::r) = 0 :=
    countEmptyP_zero_of_no_emptyP (emptyP_no_interior_overlap 9 (by omega) (by omega) r)
  have hc10 : countEmptyP ('>'::r) = 0 :=
    countEmptyP_zero_of_no_emptyP (emptyP_no_interior_overlap 10 (by omega) (by omega) r)
  show collapseEmptyParagraphs ('<':: 'p':: '>':: '<':: 'b':: 'r':: '>':: '<':: '/':: 'p':: '>'::r) =
    '<':: 'p':: '>':: '<':: 'b':: 'r':: '>':: '<':: '/':: 'p':: '>'::collapseEmptyParagraphs r
  rw [collapseEmptyParagraphs_cons, if_neg (by rw [hc0]; omega)]
  rw [collapseEmptyParagraphs_cons, if_neg (by rw [hc1]; omega)]
  rw [collapseEmptyParagraphs_cons, if_neg (by rw [hc2]; omega)]
  rw [collapseEmptyParagraphs_cons, if_neg (by rw [hc3]; omega)]
  rw [collapseEmptyParagraphs_cons, if_neg (by rw [hc4]; omega)]
  rw [collapseEmptyParagraphs_cons, if_neg (by rw [hc5]; omega)]
  rw [collapseEmptyParagraphs_cons, if_neg (by rw [hc6]; omega)]
  rw [collapseEmptyParagraphs_cons, if_neg (by rw [hc7]; omega)]
  rw [collapseEmptyParagraphs_cons, if_neg (by rw [hc8]; omega)]
  rw [collapseEmptyParagraphs_cons, if_neg (by rw [hc9]; omega)]
  rw [collapseEmptyParagraphs_cons, if_neg (by rw [hc10]; omega)]

theorem countEmptyP_drop_maximal : ∀ l : List Char, ¬ emptyP <+: l.drop (11 * countEmptyP l) := by
  intro l
  induction l using list_length_induction with
  | _ l IH =>
    rw [countEmptyP_eq]
    rcases hb : emptyP.isPrefixOf l with _ | _
    · rw [if_neg (by simp [hb])]
      simp only [Nat.mul_zero, List.drop_zero]
      exact not_prefix_of_isPrefixOf_false hb
    · rw [if_pos (by simp [hb])]
      have h11 : 11 ≤ l.length := by
        have := (List.isPrefixOf_iff_prefix.mp hb).length_le
        simpa [emptyP] using this
      have := IH (l.drop 11) (by simp only [List.length_drop]; omega)
      rw [List.drop_drop] at this
      have harith : 11 + 11 * countEmptyP (l.drop 11) = 11 * (1 + countEmptyP (l.drop 11)) := by
        ring
      rwa [harith] at this

theorem collapse_prefix_reflect :
    ∀ m : List Char, ∀ i, (emptyP.drop i) <+: collapseEmptyParagraphs m →
      (emptyP.drop i) <+: m := by
  intro m
  induction m using list_length_induction with
  | _ m IH =>
    intro i hp
    by_cases hi : 11 ≤ i
    · have hnil : emptyP.drop i = [] :=
        List.drop_eq_nil_of_le (by rw [show emptyP.length = 11 from rfl]; omega)
      rw [hnil]
      exact List.nil_prefix
    match m with
    | [] =>
      rw [collapseEmptyParagraphs_nil] at hp
      have hnil := List.prefix_nil.mp hp
      have hlen : (emptyP.drop i).length = 11 - i := by
        rw [List.length_drop, show emptyP.length = 11 from rfl]
      rw [hnil] at hlen
      simp at hlen
      omega
    | c :: rest =>
      by_cases hk : 3 ≤ countEmptyP (c :: rest)
      · rw [collapseEmptyParagraphs_cons, if_pos hk, List.append_assoc] at hp
        rcases Nat.eq_zero_or_pos i with rfl | hipos
        · simp only [List.drop_zero]
          exact countEmptyP_pos_prefix (by omega)
        · exact absurd hp (emptyP_drop_self_overlap i hipos (by omega) _)
      · rw [collapseEmptyParagraphs_cons, if_neg hk] at hp
        have hilt : i < emptyP.length := by rw [show emptyP.length = 11 from rfl]; omega
        rw [List.drop_eq_getElem_cons hilt] at hp ⊢
        rw [List.cons_prefix_cons] at hp ⊢
        exact ⟨hp.1, IH rest (by simp) (i + 1) hp.2⟩

theorem collapse_prefix_reflect0 {m : List Char}
    (h : emptyP <+: collapseEmptyParagraphs m) : emptyP <+: m := by
  have := collapse_prefix_reflect m 0 (by simpa using h)
  simpa using this

theorem suffix_append_cases {l₁ l₂ l₃ : List Char} (h : l₁ <:+ (l₂ ++ l₃)) :
    l₁ <:+ l₃ ∨ ∃ l', l' <:+ l₂ ∧ l₁ = l' ++ l₃ := by
  induction l₂ with
  | nil =>
    left
    simpa using h
  | cons c cs ih =>
    rw [List.cons_append, List.suffix_cons_iff] at h
    rcases h with rfl | h
    · right
      exact ⟨c :: cs, List.suffix_rfl, by simp⟩
    · rcases ih h with h1 | ⟨l', hl', rfl⟩
      · exact Or.inl h1
      · exact Or.inr ⟨l', hl'.trans (List.suffix_cons c cs), rfl⟩

theorem suffix_of_emptyP_drop {l' : List Char} (h : l' <:+ emptyP) :
    ∃ i ≤ 11, l' = emptyP.drop i := by
  obtain ⟨u, hu⟩ := h
  refine ⟨u.length, ?_, ?_⟩
  · have : u.length + l'.length = 11 := by
      have := congrArg List.length hu
      simpa [emptyP] using this
    omega
  · rw [← hu, List.drop_left]

theorem countEmptyP_suffix_append {l2 z : List Char} (hs : l2 <:+ emptyP)
    (hz : ¬ emptyP <+: z) : countEmptyP (l2 ++ z) ≤ 1 := by
  obtain ⟨i, hi, rfl⟩ := suffix_of_emptyP_drop hs
  rcases Nat.eq_zero_or_pos i with rfl | hipos
  · simp only [List.drop_zero]
    rw [countEmptyP_append, countEmptyP_zero_of_no_emptyP hz]
  · by_cases hi11 : i = 11
    · subst hi11
      rw [show emptyP.drop 11 = [] from rfl, List.nil_append,
        countEmptyP_zero_of_no_emptyP hz]
      omega
    · rw [countEmptyP_zero_of_no_emptyP (emptyP_no_interior_overlap i hipos (by omega) z)]
      omega

theorem countEmptyP_suffix_append2 {l2 z : List Char} (hs : l2 <:+ emptyP)
    (hz : ¬ emptyP <+: z) : countEmptyP (l2 ++ (emptyP ++ z)) ≤ 2 := by
  obtain ⟨i, hi, rfl⟩ := suffix_of_emptyP_drop hs
  rcases Nat.eq_zero_or_pos i with rfl | hipos
  · simp only [List.drop_zero]
    rw [countEmptyP_append, countEmptyP_append, countEmptyP_zero_of_no_emptyP hz]
  · by_cases hi11 : i = 11
    · subst hi11
      rw [show emptyP.drop 11 = [] from rfl, List.nil_append,
        countEmptyP_append, countEmptyP_zero_of_no_emptyP hz]
      omega
    · rw [countEmptyP_zero_of_no_emptyP
        (emptyP_no_interior_overlap i hipos (by omega) (emptyP ++ z))]
      omega

theorem countEmptyP_collapse_le2 :
    ∀ m : List Char, countEmptyP m ≤ 2 → countEmptyP (collapseEmptyParagraphs m) ≤ 2 := by
  intro m hm
  rcases hc : countEmptyP m with _ | k
  · have hnp : ¬ emptyP <+: m := fun hp => by
      obtain ⟨r, rfl⟩ := hp
      rw [countEmptyP_append] at hc
      omega
    rw [countEmptyP_zero_of_no_emptyP (fun hp => hnp (collapse_prefix_reflect0 hp))]
    omega
  rcases k with _ | k
  · obtain ⟨r, rfl⟩ := countEmptyP_pos_prefix (l := m) (by omega)
    rw [countEmptyP_append] at hc
    have hr0 : countEmptyP r = 0 := by omega
    have hnp : ¬ emptyP <+: r := fun hp => by
      obtain ⟨r2, rfl⟩ := hp
      rw [countEmptyP_append] at hr0
      omega
    rw [collapse_copy_emptyP (by omega), countEmptyP_append,
      countEmptyP_zero_of_no_emptyP (fun hp => hnp (collapse_prefix_reflect0 hp))]
    omega
  rcases k with _ | k
  · obtain ⟨r1, rfl⟩ := countEmptyP_pos_prefix (l := m) (by omega)
    rw [countEmptyP_append] at hc
    have hr1 : countEmptyP r1 = 1 := by omega
    obtain ⟨r2, rfl⟩ := countEmptyP_pos_prefix (l := r1) (by omega)
    rw [countEmptyP_append] at hr1
    have hr2 : countEmptyP r2 = 0 := by omega
    have hnp : ¬ emptyP <+: r2 := fun hp => by
      obtain ⟨r3, rfl⟩ := hp
      rw [countEmptyP_append] at hr2
      omega
    rw [collapse_copy_emptyP (by omega), collapse_copy_emptyP (by omega),
      countEmptyP_append, countEmptyP_append,
      countEmptyP_zero_of_no_emptyP (fun hp => hnp (collapse_prefix_reflect0 hp))]
  · omega

theorem collapse_noop_of_noTriple :
    ∀ h : List Char, (∀ v, v <:+ h → countEmptyP v ≤ 2) → collapseEmptyParagraphs h = h := by
  intro h
  induction h with
  | nil => intro _; rfl
  | cons c rest ih =>
    intro hnt
    rw [collapseEmptyParagraphs_cons, if_neg (by
      have := hnt (c :: rest) List.suffix_rfl
      omega)]
    rw [ih (fun v hv => hnt v (hv.trans (List.suffix_cons c rest)))]

theorem collapse_noTriple :
    ∀ l : List Char, ∀ v, v <:+ collapseEmptyParagraphs l → countEmptyP v ≤ 2 := by
  intro l
  induction l using list_length_induction with
  | _ l IH =>
    intro v hv
    match l with
    | [] =>
      rw [collapseEmptyParagraphs_nil] at hv
      rw [List.suffix_nil.mp hv]
      decide
    | c :: rest =>
      by_cases hk : 3 ≤ countEmptyP (c :: rest)
      · rw [collapseEmptyParagraphs_cons, if_pos hk, List.append_assoc] at hv
        have hnoB : ¬ emptyP <+: (c :: rest).drop (11 * countEmptyP (c :: rest)) :=
          countEmptyP_drop_maximal (c :: rest)
        have hlen : ((c :: rest).drop (11 * countEmptyP (c :: rest))).length <
            (c :: rest).length := by
          rw [List.length_drop]
          simp only [List.length_cons]
          omega
        have hnoBc : ¬ emptyP <+:
            collapseEmptyParagraphs ((c :: rest).drop (11 * countEmptyP (c :: rest))) :=
          fun hp => hnoB (collapse_prefix_reflect0 hp)
        rcases suffix_append_cases hv with h1 | ⟨l2, hl2, rfl⟩
        · rcases suffix_append_cases h1 with h2 | ⟨l3, hl3, rfl⟩
          · exact IH _ hlen _ h2
          · have := countEmptyP_suffix_append hl3 hnoBc
            omega
        · exact countEmptyP_suffix_append2 hl2 hnoBc
      · rw [collapseEmptyParagraphs_cons, if_neg hk] at hv
        rcases List.suffix_cons_iff.mp hv with rfl | h2
        · have heq : c :: collapseEmptyParagraphs rest = collapseEmptyParagraphs (c :: rest) := by
            rw [collapseEmptyParagraphs_cons, if_neg hk]
          rw [heq]
          exact countEmptyP_collapse_le2 _ (by omega)
        · exact IH rest (by simp) v h2

theorem collapse_idem (l : List Char) :
    collapseEmptyParagraphs (collapseEmptyParagraphs l) = collapseEmptyParagraphs l :=
  collapse_noop_of_noTriple _ (collapse_noTriple l)

theorem wrapLi_noop {h : List Char} (hno : firstOcc liOpen h = none) : wrapLi h = h := by
  induction h with
  | nil => rfl
  | cons c rest ih =>
    have key := firstOcc_none_iff.mp hno
    have h0 : liOpen.isPrefixOf (c :: rest) = false := by
      have hk := key 0
      simp only [List.drop_zero] at hk
      rcases hb : liOpen.isPrefixOf (c :: rest)
      · rfl
      · exact absurd hb hk
    rw [wrapLi_copy_char h0]
    have hrest : firstOcc liOpen rest = none := by
      rw [firstOcc_none_iff]
      intro j
      have := key (j + 1)
      simpa using this
    rw [ih hrest]

theorem firstOcc_none_of_not_infix {pat l : List Char} (h : ¬ pat <:+: l) :
    firstOcc pat l = none := by
  rcases ho : firstOcc pat l with _ | j
  · rfl
  · exfalso
    have hp := firstOcc_some_isPrefixOf ho
    exact h ((List.isPrefixOf_iff_prefix.mp hp).isInfix.trans (l.drop_suffix j).isInfix)

/-- Claim C4 (counterexample): post-processing is not idempotent on
already-post-processed HTML. `postProcess "<li>a</li>"` yields
`<ul><li>a</li></ul>`, and a second application re-wraps the surviving
`<li>...</li>` block, producing the different string
`<ul><ul><li>a</li></ul></ul>`: the `<li>`-run regex of part_003 line 178
matches inside an existing `<ul>` wrapper. -/
theorem postprocess_idempotence_counterexample :
    postProcess (postProcess "<li>a</li>".toList) ≠ postProcess "<li>a</li>".toList := by
  decide

/-- Claim C4 (amended): post-processing is idempotent on post-processed HTML
that contains no `<li>` substring. The collapse pass is idempotent
unconditionally, but the list-wrapping pass re-wraps any remaining
`<li>...</li>` block, so idempotence requires the absence of `<li>`. -/
theorem postprocess_idempotent_amended (x h : List Char) (hh : h = postProcess x)
    (hli : ¬ ("<li>".toList <:+: h)) : postProcess h = h := by
  have hnone : firstOcc liOpen h = none := firstOcc_none_of_not_infix hli
  have hw : wrapLi h = h := wrapLi_noop hnone
  rw [postProcess, hw, hh, postProcess]
  exact collapse_idem _

theorem postprocess_idempotent_amended_witness :
    ¬ ("<li>".toList <:+: postProcess "ab".toList) ∧
      postProcess (postProcess "ab".toList) = postProcess "ab".toList :=
  ⟨by decide,
    postprocess_idempotent_amended "ab".toList (postProcess "ab".toList) rfl (by decide)⟩

/-! ### C3: escaping round-trip -/

/-- Per-character effect of the first three escape steps (`&`, `<`, `>`)
of part_003 lines 134–136. -/
def esc (c : Char) : List Char :=
  if c = '&' then "&amp;".toList
  else if c = '<' then "&lt;".toList
  else if c = '>' then "&gt;".toList
  else [c]

/-- Per-character state after the `&lt;` entity has been decoded again. -/
def esc1 (c : Char) : List Char :=
  if c = '&' then "&amp;".toList
  else if c = '>' then "&gt;".toList
  else [c]

/-- Per-character state after `&lt;` and `&gt;` have been decoded again. -/
def esc2 (c : Char) : List Char :=
  if c = '&' then "&amp;".toList
  else [c]

theorem jsReplace_single (p : Char) (repl : List Char) :
    ∀ t : List Char, jsReplace [p] repl t = t.flatMap (fun c => if c = p then repl else [c]) := by
  intro t
  induction t with
  | nil => rfl
  | cons c rest ih =>
    rw [jsReplace_cons, List.flatMap_cons]
    by_cases hc : c = p
    · subst hc
      rw [if_pos ⟨by simp [List.isPrefixOf], by simp⟩]
      rw [show ([c].length - 1) = 0 from rfl, List.drop_zero, ih, if_pos rfl]
    · rw [if_neg (by
        intro hcon
        have := hcon.1
        simp [List.isPrefixOf] at this
        exact hc this.symm)]
      rw [ih, if_neg hc]
      rfl

theorem escape3_eq_flatMap (t : List Char) :
    jsReplace ">".toList "&gt;".toList
      (jsReplace "<".toList "&lt;".toList
        (jsReplace "&".toList "&amp;".toList t)) = t.flatMap esc := by
  rw [show ("&".toList) = ['&'] from rfl, show ("<".toList) = ['<'] from rfl,
    show (">".toList) = ['>'] from rfl]
  rw [jsReplace_single, jsReplace_single, jsReplace_single]
  rw [List.flatMap_assoc, List.flatMap_assoc]
  congr 1
  funext x
  by_cases h1 : x = '&'
  · subst h1
    decide
  · by_cases h2 : x = '<'
    · subst h2
      decide
    · by_cases h3 : x = '>'
      · subst h3
        decide
      · simp [esc, h1, h2, h3]

theorem jsReplace_noop {pat repl l : List Char} (hno : firstOcc pat l = none) :
    jsReplace pat repl l = l := by
  induction l with
  | nil => rfl
  | cons c rest ih =>
    have key := firstOcc_none_iff.mp hno
    have h0 : pat.isPrefixOf (c :: rest) = false := by
      have hk := key 0
      simp only [List.drop_zero] at hk
      rcases hb : pat.isPrefixOf (c :: rest)
      · rfl
      · exact absurd hb hk
    rw [jsReplace_cons, if_neg (by
      intro hcon
      rw [h0] at hcon
      exact Bool.noConfusion hcon.1)]
    have hrest : firstOcc pat rest = none := by
      rw [firstOcc_none_iff]
      intro j
      have := key (j + 1)
      simpa using this
    rw [ih hrest]

theorem flatMap_esc_peek {d : Char} (h1 : d ≠ '&') (h2 : d ≠ '<') (h3 : d ≠ '>')
    {r z : List Char} (h : r.flatMap esc = d :: z) :
    ∃ r1, r = d :: r1 ∧ z = r1.flatMap esc := by
  match r with
  | [] => simp at h
  | c :: r1 =>
    rw [List.flatMap_cons] at h
    by_cases hc1 : c = '&'
    · subst hc1
      rw [show esc '&' = '&':: 'a':: 'm':: 'p':: ';'::([] : List Char) from rfl] at h
      injection h with h4 _
      exact absurd h4.symm h1
    · by_cases hc2 : c = '<'
      · subst hc2
        rw [show esc '<' = '&':: 'l':: 't':: ';'::([] : List Char) from rfl] at h
        injection h with h4 _
        exact absurd h4.symm h1
      · by_cases hc3 : c = '>'
        · subst hc3
          rw [show esc '>' = '&':: 'g':: 't':: ';'::([] : List Char) from rfl] at h
          injection h with h4 _
          exact absurd h4.symm h1
        · rw [show esc c = [c] from by simp [esc, hc1, hc2, hc3]] at h
          injection h with h4 h5
          exact ⟨r1, by rw [h4], h5.symm⟩

theorem flatMap_esc_peek_run :
    ∀ tail : List Char, (∀ d ∈ tail, d ≠ '&' ∧ d ≠ '<' ∧ d ≠ '>') →
      ∀ r : List Char, tail <+: r.flatMap esc → ∃ r2, r = tail ++ r2 := by
  intro tail
  induction tail with
  | nil => exact fun _ r _ => ⟨r, rfl⟩
  | cons d ds ih =>
    intro hspec r hp
    obtain ⟨u, hu⟩ := hp
    have hd := hspec d (List.mem_cons_self d ds)
    obtain ⟨r1, rfl, hz⟩ := flatMap_esc_peek hd.1 hd.2.1 hd.2.2 hu.symm
    obtain ⟨r2, rfl⟩ := ih (fun e he => hspec e (List.mem_cons_of_mem d he)) r1 ⟨u, hz⟩
    exact ⟨r2, rfl⟩

theorem flatMap_esc_no_fixup (tail : List Char)
    (hspec : ∀ d ∈ tail, d ≠ '&' ∧ d ≠ '<' ∧ d ≠ '>') :
    ∀ t : List Char, ¬ (('&' :: tail) <:+: t) →
      ∀ j, ¬ ('&':: 'a':: 'm':: 'p':: ';'::tail).isPrefixOf ((t.flatMap esc).drop j) := by
  intro t
  induction t with
  | nil =>
    intro _ j
    simp [List.isPrefixOf]
  | cons c r ih =>
    intro hni j
    have hni_r : ¬ (('&' :: tail) <:+: r) := fun hx =>
      hni (hx.trans (List.suffix_cons c r).isInfix)
    have IH := ih hni_r
    rw [List.flatMap_cons]
    by_cases hc1 : c = '&'
    · subst hc1
      rw [show esc '&' = '&':: 'a':: 'm':: 'p':: ';'::([] : List Char) from rfl]
      simp only [List.cons_append, List.nil_append]
      rcases j with _ | (_ | (_ | (_ | (_ | j))))
      · simp only [List.drop_zero]
        intro hpre
        simp only [List.isPrefixOf, List.cons.injEq, Bool.and_eq_true, beq_self_eq_true,
          true_and] at hpre
        have hp : tail <+: r.flatMap esc := List.isPrefixOf_iff_prefix.mp hpre
        obtain ⟨r2, rfl⟩ := flatMap_esc_peek_run tail hspec r hp
        exact hni (List.prefix_append ('&' :: tail) r2).isInfix
      · simp [List.isPrefixOf]
      · simp [List.isPrefixOf]
      · simp [List.isPrefixOf]
      · simp [List.isPrefixOf]
      · simp only [List.drop_succ_cons]
        exact IH j
    · by_cases hc2 : c = '<'
      · subst hc2
        rw [show esc '<' = '&':: 'l':: 't':: ';'::([] : List Char) from rfl]
        simp only [List.cons_append, List.nil_append]
        rcases j with _ | (_ | (_ | (_ | j)))
        · simp [List.isPrefixOf]
        · simp [List.isPrefixOf]
        · simp [List.isPrefixOf]
        · simp [List.isPrefixOf]
        · simp only [List.drop_succ_cons]
          exact IH j
      · by_cases hc3 : c = '>'
        · subst hc3
          rw [show esc '>' = '&':: 'g':: 't':: ';'::([] : List Char) from rfl]
          simp only [List.cons_append, List.nil_append]
          rcases j with _ | (_ | (_ | (_ | j)))
          · simp [List.isPrefixOf]
          · simp [List.isPrefixOf]
          · simp [List.isPrefixOf]
          · simp [List.isPrefixOf]
          · simp only [List.drop_succ_cons]
            exact IH j
        · rw [show esc c = [c] from by simp [esc, hc1, hc2, hc3]]
          simp only [List.cons_append, List.nil_append]
          rcases j with _ | j
          · simp only [List.drop_zero]
            intro hpre
            simp only [List.isPrefixOf, Bool.and_eq_true, beq_iff_eq] at hpre
            exact hc1 hpre.1.symm
          · simp only [List.drop_succ_cons]
            exact IH j

theorem not_infix_fixup {tail : List Char}
    (hspec : ∀ d ∈ tail, d ≠ '&' ∧ d ≠ '<' ∧ d ≠ '>')
    {t : List Char} (hni : ¬ (('&' :: tail) <:+: t)) :
    firstOcc ('&':: 'a':: 'm':: 'p':: ';'::tail) (t.flatMap esc) = none := by
  rcases ho : firstOcc ('&':: 'a':: 'm':: 'p':: ';'::tail) (t.flatMap esc) with _ | j
  · rfl
  · exact absurd (firstOcc_some_isPrefixOf ho) (flatMap_esc_no_fixup tail hspec t hni j)

theorem escapeHtml_eq_flatMap {t : List Char}
    (h1 : ¬ ("&lt;".toList <:+: t)) (h2 : ¬ ("&gt;".toList <:+: t))
    (h3 : ¬ ("&amp;".toList <:+: t)) : escapeHtml t = t.flatMap esc := by
  have hf1 : firstOcc "&amp;lt;".toList (t.flatMap esc) = none :=
    not_infix_fixup (by decide) h1
  have hf2 : firstOcc "&amp;gt;".toList (t.flatMap esc) = none :=
    not_infix_fixup (by decide) h2
  have hf3 : firstOcc "&amp;amp;".toList (t.flatMap esc) = none :=
    not_infix_fixup (by decide) h3
  rw [escapeHtml, escape3_eq_flatMap, jsReplace_noop hf1, jsReplace_noop hf2, jsReplace_noop hf3]

theorem unescape_step1 : ∀ t : List Char,
    jsReplace "&lt;".toList "<".toList (t.flatMap esc) = t.flatMap esc1 := by
  intro t
  rw [show ("&lt;".toList) = '&':: 'l':: 't':: ';'::([] : List Char) from rfl,
    show ("<".toList) = ['<'] from rfl]
  induction t with
  | nil => rfl
  | cons c r ih =>
    rw [List.flatMap_cons, List.flatMap_cons]
    by_cases hc1 : c = '&'
    · subst hc1
      rw [show esc '&' = '&':: 'a':: 'm':: 'p':: ';'::([] : List Char) from rfl,
        show esc1 '&' = '&':: 'a':: 'm':: 'p':: ';'::([] : List Char) from rfl]
      simp only [List.cons_append, List.nil_append]
      rw [jsReplace_cons, if_neg (by simp [List.isPrefixOf])]
      rw [jsReplace_cons, if_neg (by simp [List.isPrefixOf])]
      rw [jsReplace_cons, if_neg (by simp [List.isPrefixOf])]
      rw [jsReplace_cons, if_neg (by simp [List.isPrefixOf])]
      rw [jsReplace_cons, if_neg (by simp [List.isPrefixOf])]
      rw [ih]
    · by_cases hc2 : c = '<'
      · subst hc2
        rw [show esc '<' = '&':: 'l':: 't':: ';'::([] : List Char) from rfl,
          show esc1 '<' = ['<'] from rfl]
        simp only [List.cons_append, List.nil_append]
        rw [jsReplace_cons, if_pos ⟨by simp [List.isPrefixOf], by simp⟩]
        rw [show (('&':: 'l':: 't':: ';'::([] : List Char)).length - 1) = 3 from rfl]
        rw [show List.drop 3 ('l':: 't':: ';'::(r.flatMap esc)) = r.flatMap esc from rfl]
        rw [ih]
        rfl
      · by_cases hc3 : c = '>'
        · subst hc3
          rw [show esc '>' = '&':: 'g':: 't':: ';'::([] : List Char) from rfl,
            show esc1 '>' = '&':: 'g':: 't':: ';'::([] : List Char) from rfl]
          simp only [List.cons_append, List.nil_append]
          rw [jsReplace_cons, if_neg (by simp [List.isPrefixOf])]
          rw [jsReplace_cons, if_neg (by simp [List.isPrefixOf])]
          rw [jsReplace_cons, if_neg (by simp [List.isPrefixOf])]
          rw [jsReplace_cons, if_neg (by simp [List.isPrefixOf])]
          rw [ih]
        · rw [show esc c = [c] from by simp [esc, hc1, hc2, hc3],
            show esc1 c = [c] from by simp [esc1, hc1, hc3]]
          simp only [List.cons_append, List.nil_append]
          rw [jsReplace_cons, if_neg (by
            intro hcon
            have hx := hcon.1
            simp [List.isPrefixOf,
              show ('&' == c) = false from beq_eq_false_iff_ne.mpr (Ne.symm hc1)] at hx)]
          rw [ih]

theorem unescape_step2 : ∀ t : List Char,
    jsReplace "&gt;".toList ">".toList (t.flatMap esc1) = t.flatMap esc2 := by
  intro t
  rw [show ("&gt;".toList) = '&':: 'g':: 't':: ';'::([] : List Char) from rfl,
    show (">".toList) = ['>'] from rfl]
  induction t with
  | nil => rfl
  | cons c r ih =>
    rw [List.flatMap_cons, List.flatMap_cons]
    by_cases hc1 : c = '&'
    · subst hc1
      rw [show esc1 '&' = '&':: 'a':: 'm':: 'p':: ';'::([] : List Char) from rfl,
        show esc2 '&' = '&':: 'a':: 'm':: 'p':: ';'::([] : List Char) from rfl]
      simp only [List.cons_append, List.nil_append]
      rw [jsReplace_cons, if_neg (by simp [List.isPrefixOf])]
      rw [jsReplace_cons, if_neg (by simp [List.isPrefixOf])]
      rw [jsReplace_cons, if_neg (by simp [List.isPrefixOf])]
      rw [jsReplace_cons, if_neg (by simp [List.isPrefixOf])]
      rw [jsReplace_cons, if_neg (by simp [List.isPrefixOf])]
      rw [ih]
    · by_cases hc3 : c = '>'
      · subst hc3
        rw [show esc1 '>' = '&':: 'g':: 't':: ';'::([] : List Char) from rfl,
          show esc2 '>' = ['>'] from rfl]
        simp only [List.cons_append, List.nil_append]
        rw [jsReplace_cons, if_pos ⟨by simp [List.isPrefixOf], by simp⟩]
        rw [show (('&':: 'g':: 't':: ';'::([] : List Char)).length - 1) = 3 from rfl]
        rw [show List.drop 3 ('g':: 't':: ';'::(r.flatMap esc1)) = r.flatMap esc1 from rfl]
        rw [ih]
        rfl
      · rw [show esc1 c = [c] from by simp [esc1, hc1, hc3],
          show esc2 c = [c] from by simp [esc2, hc1]]
        simp only [List.cons_append, List.nil_append]
        rw [jsReplace_cons, if_neg (by
          intro hcon
          have hx := hcon.1
          simp [List.isPrefixOf,
            show ('&' == c) = false from beq_eq_false_iff_ne.mpr (Ne.symm hc1)] at hx)]
        rw [ih]

theorem unescape_step3 : ∀ t : List Char,
    jsReplace "&amp;".toList "&".toList (t.flatMap esc2) = t := by
  intro t
  rw [show ("&amp;".toList) = '&':: 'a':: 'm':: 'p':: ';'::([] : List Char) from rfl,
    show ("&".toList) = ['&'] from rfl]
  induction t with
  | nil => rfl
  | cons c r ih =>
    rw [List.flatMap_cons]
    by_cases hc1 : c = '&'
    · subst hc1
      rw [show esc2 '&' = '&':: 'a':: 'm':: 'p':: ';'::([] : List Char) from rfl]
      simp only [List.cons_append, List.nil_append]
      rw [jsReplace_cons, if_pos ⟨by simp [List.isPrefixOf], by simp⟩]
      rw [show (('&':: 'a':: 'm':: 'p':: ';'::([] : List Char)).length - 1) = 4 from rfl]
      rw [show List.drop 4 ('a':: 'm':: 'p':: ';'::(r.flatMap esc2)) = r.flatMap esc2 from rfl]
      rw [ih]
      rfl
    · rw [show esc2 c = [c] from by simp [esc2, hc1]]
      simp only [List.cons_append, List.nil_append]
      rw [jsReplace_cons, if_neg (by
        intro hcon
        have hx := hcon.1
        simp [List.isPrefixOf,
          show ('&' == c) = false from beq_eq_false_iff_ne.mpr (Ne.symm hc1)] at hx)]
      rw [ih]

theorem unescape_flatMap_esc (t : List Char) : unescapeHtml (t.flatMap esc) = t := by
  rw [unescapeHtml, unescape_step1, unescape_step2, unescape_step3]

theorem dropTag_length_le : ∀ r : List Char, (dropTag r).length ≤ r.length := by
  intro r
  induction r with
  | nil => exact le_rfl
  | cons c rest ih =>
    simp only [dropTag]
    split
    · simp
    · simp only [List.length_cons]
      omega

theorem stripTagsF_congr :
    ∀ f1 f2 l, l.length ≤ f1 → l.length ≤ f2 → stripTagsF f1 l = stripTagsF f2 l := by
  intro f1
  induction f1 with
  | zero =>
    intro f2 l h1 _
    obtain rfl : l = [] := List.length_eq_zero.mp (by omega)
    cases f2 <;> rfl
  | succ f1 IH =>
    intro f2 l h1 h2
    match l with
    | [] => cases f2 <;> rfl
    | c :: rest =>
      match f2 with
      | 0 => simp at h2
      | f2 + 1 =>
        simp only [stripTagsF]
        have hr : rest.length ≤ f1 := by simp at h1; omega
        have hr2 : rest.length ≤ f2 := by simp at h2; omega
        split
        · exact IH f2 _ (le_trans (dropTag_length_le rest) hr)
            (le_trans (dropTag_length_le rest) hr2)
        · rw [IH f2 rest hr hr2]

theorem stripTags_nil : stripTags [] = [] := rfl

theorem stripTags_cons (c : Char) (rest : List Char) :
    stripTags (c :: rest) =
      if c = '<' then stripTags (dropTag rest) else c :: stripTags rest := by
  show stripTagsF (rest.length + 1) (c :: rest) = _
  simp only [stripTagsF]
  split
  · exact stripTagsF_congr rest.length (dropTag rest).length _ (dropTag_length_le rest) le_rfl
  · rfl

theorem stripTags_skip_uO (y : List Char) : stripTags ("<u>".toList ++ y) = stripTags y := by
  rw [show ("<u>".toList ++ y) = '<':: 'u':: '>'::y from rfl, stripTags_cons, if_pos rfl,
    show dropTag ('u':: '>'::y) = y from rfl]

theorem stripTags_skip_uC (y : List Char) : stripTags ("</u>".toList ++ y) = stripTags y := by
  rw [show ("</u>".toList ++ y) = '<':: '/':: 'u':: '>'::y from rfl, stripTags_cons, if_pos rfl,
    show dropTag ('/':: 'u':: '>'::y) = y from rfl]

theorem stripTags_skip_emO (y : List Char) : stripTags ("<em>".toList ++ y) = stripTags y := by
  rw [show ("<em>".toList ++ y) = '<':: 'e':: 'm':: '>'::y from rfl, stripTags_cons, if_pos rfl,
    show dropTag ('e':: 'm':: '>'::y) = y from rfl]

theorem stripTags_skip_emC (y : List Char) : stripTags ("</em>".toList ++ y) = stripTags y := by
  rw [show ("</em>".toList ++ y) = '<':: '/':: 'e':: 'm':: '>'::y from rfl, stripTags_cons,
    if_pos rfl, show dropTag ('/':: 'e':: 'm':: '>'::y) = y from rfl]

theorem stripTags_skip_strongO (y : List Char) :
    stripTags ("<strong>".toList ++ y) = stripTags y := by
  rw [show ("<strong>".toList ++ y) = '<':: 's':: 't':: 'r':: 'o':: 'n':: 'g':: '>'::y from rfl,
    stripTags_cons, if_pos rfl, show dropTag ('s':: 't':: 'r':: 'o':: 'n':: 'g':: '>'::y) = y from rfl]

theorem stripTags_skip_strongC (y : List Char) :
    stripTags ("</strong>".toList ++ y) = stripTags y := by
  rw [show ("</strong>".toList ++ y) = '<':: '/':: 's':: 't':: 'r':: 'o':: 'n':: 'g':: '>'::y from rfl,
    stripTags_cons, if_pos rfl,
    show dropTag ('/':: 's':: 't':: 'r':: 'o':: 'n':: 'g':: '>'::y) = y from rfl]

theorem stripTags_append_no_lt :
    ∀ e : List Char, (∀ ch ∈ e, ch ≠ '<') → ∀ y, stripTags (e ++ y) = e ++ stripTags y := by
  intro e
  induction e with
  | nil => intro _ y; rfl
  | cons c r ih =>
    intro he y
    rw [List.cons_append, stripTags_cons, if_neg (he c (List.mem_cons_self c r))]
    rw [ih (fun ch hch => he ch (List.mem_cons_of_mem c hch)) y]
    rfl

theorem stripTags_wrap_step {inner e oT cT : List Char}
    (hinner : ∀ y, stripTags (inner ++ y) = e ++ stripTags y)
    (hoT : ∀ y, stripTags (oT ++ y) = stripTags y)
    (hcT : ∀ y, stripTags (cT ++ y) = stripTags y) (cond : Bool) :
    ∀ y, stripTags ((if cond then oT ++ inner ++ cT else inner) ++ y) = e ++ stripTags y := by
  intro y
  cases cond
  · rw [if_neg (by simp)]
    exact hinner y
  · rw [if_pos rfl]
    simp only [List.append_assoc]
    rw [hoT, hinner, hcT]

theorem stripTags_wrapFormatting (b i u : Bool) {e : List Char}
    (he : ∀ ch ∈ e, ch ≠ '<') : stripTags (wrapFormatting b i u e) = e := by
  have h0 : ∀ y, stripTags (e ++ y) = e ++ stripTags y := stripTags_append_no_lt e he
  have h1 := stripTags_wrap_step h0 stripTags_skip_uO stripTags_skip_uC u
  have h2 := stripTags_wrap_step h1 stripTags_skip_emO stripTags_skip_emC i
  have h3 := stripTags_wrap_step h2 stripTags_skip_strongO stripTags_skip_strongC b
  have h4 := h3 []
  rw [List.append_nil, stripTags_nil, List.append_nil] at h4
  exact h4

theorem flatMap_esc_no_lt (t : List Char) : ∀ ch ∈ t.flatMap esc, ch ≠ '<' := by
  intro ch hch
  rw [List.mem_flatMap] at hch
  obtain ⟨a, _, hmem⟩ := hch
  by_cases h1 : a = '&'
  · subst h1
    rw [show esc '&' = '&':: 'a':: 'm':: 'p':: ';'::([] : List Char) from rfl] at hmem
    simp at hmem
    rcases hmem with rfl | rfl | rfl | rfl | rfl <;> decide
  · by_cases h2 : a = '<'
    · subst h2
      rw [show esc '<' = '&':: 'l':: 't':: ';'::([] : List Char) from rfl] at hmem
      simp at hmem
      rcases hmem with rfl | rfl | rfl | rfl <;> decide
    · by_cases h3 : a = '>'
      · subst h3
        rw [show esc '>' = '&':: 'g':: 't':: ';'::([] : List Char) from rfl] at hmem
        simp at hmem
        rcases hmem with rfl | rfl | rfl | rfl <;> decide
      · rw [show esc a = [a] from by simp [esc, h1, h2, h3]] at hmem
        simp at hmem
        subst hmem
        exact h2

/-- Claim C3 (counterexample): the escaping round-trip fails on text that
already contains an entity. For the run text `&lt;` the escape chain first
produces `&amp;lt;`, but the fixups of part_003 lines 138–140 then turn it
back into `&lt;`, so stripping tags and unescaping yields `<`, not the
original `&lt;` — the emitted HTML does not decode back to the source text,
and already-escaped fragments are effectively unescaped a second time. -/
theorem escape_roundtrip_counterexample :
    ('&' ∈ "&lt;".toList) ∧
      unescapeHtml (stripTags (runContribution false false false "&lt;".toList)) ≠
        "&lt;".toList := by
  decide

/-- Claim C3 (amended): for run text containing any of `&`, `<`, `>` but
none of the substrings `&lt;`, `&gt;`, `&amp;`, the run's emitted HTML,
after stripping its tags, HTML-entity-unescapes back exactly to the
original text; the escapes are applied once each, in the order `&`, `<`,
`>`. The extra condition is needed because the fixups of lines 138–140
rewrite the double-escaped forms of those three entities. -/
theorem escape_roundtrip_amended (b i u : Bool) (t : List Char)
    (hmem : '&' ∈ t ∨ '<' ∈ t ∨ '>' ∈ t)
    (h1 : ¬ ("&lt;".toList <:+: t)) (h2 : ¬ ("&gt;".toList <:+: t))
    (h3 : ¬ ("&amp;".toList <:+: t)) :
    unescapeHtml (stripTags (runContribution b i u t)) = t := by
  have ht : t ≠ [] := by
    rcases hmem with h | h | h <;> exact fun he => by subst he; simp at h
  rw [runContribution, if_neg ht, escapeHtml_eq_flatMap h1 h2 h3,
    stripTags_wrapFormatting b i u (flatMap_esc_no_lt t), unescape_flatMap_esc]

theorem escape_roundtrip_amended_witness :
    ('&' ∈ "a&b".toList ∨ '<' ∈ "a&b".toList ∨ '>' ∈ "a&b".toList) ∧
      ¬ ("&lt;".toList <:+: "a&b".toList) ∧ ¬ ("&gt;".toList <:+: "a&b".toList) ∧
      ¬ ("&amp;".toList <:+: "a&b".toList) ∧
      unescapeHtml (stripTags (runContribution true true true "a&b".toList)) = "a&b".toList :=
  ⟨by decide, by decide, by decide, by decide,
    escape_roundtrip_amended true true true "a&b".toList (by decide) (by decide) (by decide)
      (by decide)⟩
